import Mathlib

/-!
Verification of the scheduled-posting subsystem of `deni.py`.

The Python source is shallowly embedded below:
* dict-valued JSON records become Lean structures;
* the `db` dict becomes the `St` structure (association lists play the
  role of Python dicts; key-uniqueness is proved as an invariant);
* timestamps (`time.time()`, `datetime.utcnow()`) are modelled as `Int`
  values in seconds; the two clocks used by `scheduler_loop` are passed
  as separate parameters `nowTs` (for `next_time` arithmetic) and
  `nowDt` (for the trial-end comparison);
* the fallible Telegram sends (`bot.send_message` / `bot.send_photo`)
  are an oracle `emit : Post → Option Nat` returning the new message id
  on success and `none` when the call raises;
* observable side effects (best-effort message deletions, successful
  sends, fire-and-forget notifications) are accumulated in a
  `List Effect`.
-/

namespace Deni

/-- `post["type"]` is the string `"text"` or `"photo"`. -/
inductive ContentKind where
  | text
  | photo
deriving DecidableEq, Repr

/-- One element of `db["scheduled"]` as built by `post_receive_channel`. -/
structure Post where
  id : String
  owner : String
  channel : String
  kind : ContentKind
  text : String
  photo : Option String
  caption : String
  minute : Nat
  next_time : Int
  paused : Bool
  last_message_id : Option Nat
deriving DecidableEq, Repr

/-- The part of a `db["users"]` record that the scheduler reads.
`trial_end` holds the result of `parse_iso` (`none` when the field is
missing or unparseable). -/
structure UserRec where
  banned : Bool
  trial_end : Option Int
  posts : List String
deriving DecidableEq, Repr

/-- One value of the `db["channel_last"]` dict. -/
structure ChanInfo where
  post_id : String
  message_id : Nat
deriving DecidableEq, Repr

/-- The distinct `sendf` notifications the subsystem can emit. -/
inductive NoteKind where
  | trialRemoved
  | autoPaused
  | postDeleted
  | banWarning
deriving DecidableEq, Repr

/-- Observable side effects of the subsystem, in program order.
`sent` records the tick timestamp at which the emission succeeded. -/
inductive Effect where
  | deleteMsg (channel : String) (message_id : Nat)
  | sent (at_ts : Int) (channel : String) (post_id : String) (message_id : Nat)
  | note (user : String) (kind : NoteKind)
deriving DecidableEq, Repr

/-- Association-list lookup, the embedding of `dict.get`. -/
def lookupA {β : Type} : List (String × β) → String → Option β
  | [], _ => none
  | (k, v) :: rest, key => if k = key then some v else lookupA rest key

/-- Association-list update, the embedding of `dict[key] = v`. -/
def setA {β : Type} : List (String × β) → String → β → List (String × β)
  | [], key, v => [(key, v)]
  | (k, w) :: rest, key, v =>
    if k = key then (k, v) :: rest else (k, w) :: setA rest key v

/-- Association-list removal, the embedding of `dict.pop(key, None)`. -/
def eraseA {β : Type} : List (String × β) → String → List (String × β)
  | [], _ => []
  | (k, v) :: rest, key => if k = key then rest else (k, v) :: eraseA rest key

/-- `list.remove(x)` : drop the first structurally equal element
(Python raises `ValueError` when absent; every call site catches it, so
the embedding is total and a no-op on absence). -/
def removeFirst : List Post → Post → List Post
  | [], _ => []
  | q :: rest, p => if q = p then rest else q :: removeFirst rest p

/-- In-place mutation of a post dict that sits inside `db["scheduled"]`:
replace the first occurrence of the old value with the new one. -/
def replaceFirst : List Post → Post → Post → List Post
  | [], _, _ => []
  | q :: rest, p, p' => if q = p then p' :: rest else q :: replaceFirst rest p p'

/-- The shared mutable state `db`, restricted to the keys the posting
subsystem touches.  `admins` is `db["admins"]` (with `ADMIN_IDS`
already merged in, as `load_db` does). -/
structure St where
  users : List (String × UserRec)
  scheduled : List Post
  channel_last : List (String × ChanInfo)
  admins : List String
deriving DecidableEq, Repr

/-- `is_admin(uid)`. -/
def is_admin (st : St) (uid : String) : Bool :=
  st.admins.contains uid

/-- `delete_channel_last_if_matches(channel, post_id)` (deni.py 414-424):
if the channel-last entry matches, best-effort delete the referenced
message and drop the entry. -/
def delete_channel_last_if_matches (st : St) (eff : List Effect)
    (channel post_id : String) : St × List Effect :=
  match lookupA st.channel_last channel with
  | none => (st, eff)
  | some info =>
    if info.post_id = post_id then
      ({ st with channel_last := eraseA st.channel_last channel },
       eff ++ [Effect.deleteMsg channel info.message_id])
    else (st, eff)

/-- Scheduler branch for a post whose owner record is gone
(deni.py 439-445): the post is removed; `channel_last` is NOT touched. -/
def evictOwnerMissing (st : St) (eff : List Effect) (post : Post) :
    St × List Effect :=
  ({ st with scheduled := removeFirst st.scheduled post }, eff)

/-- Scheduler branch for a banned owner (deni.py 448-455). -/
def evictOwnerBanned (st : St) (eff : List Effect) (post : Post) :
    St × List Effect :=
  let r := delete_channel_last_if_matches st eff post.channel post.id
  ({ r.1 with scheduled := removeFirst r.1.scheduled post }, r.2)

/-- Scheduler branch for an expired trial (deni.py 458-470): cleanup
plus an unconditional owner notification. -/
def evictTrialExpired (st : St) (eff : List Effect) (post : Post) :
    St × List Effect :=
  let r := delete_channel_last_if_matches st eff post.channel post.id
  ({ r.1 with scheduled := removeFirst r.1.scheduled post },
   r.2 ++ [Effect.note post.owner NoteKind.trialRemoved])

/-- The due-post body (deni.py 473-499): best-effort delete of the
channel's previous message, emission, and either the success
bookkeeping or the auto-pause failure path. -/
def dispatchPost (nowTs : Int) (emit : Post → Option Nat) (st : St)
    (eff : List Effect) (post : Post) : St × List Effect :=
  let eff1 := match lookupA st.channel_last post.channel with
    | some prev => eff ++ [Effect.deleteMsg post.channel prev.message_id]
    | none => eff
  match emit post with
  | some mid =>
    ({ st with
        channel_last := setA st.channel_last post.channel (ChanInfo.mk post.id mid),
        scheduled := replaceFirst st.scheduled post
          { post with last_message_id := some mid,
                      next_time := nowTs + (post.minute : Int) * 60 } },
     eff1 ++ [Effect.sent nowTs post.channel post.id mid])
  | none =>
    ({ st with scheduled := replaceFirst st.scheduled post { post with paused := true } },
     eff1 ++ [Effect.note post.owner NoteKind.autoPaused])

/-- `trial_end and datetime.utcnow() > trial_end`. -/
def trialOver (ud : UserRec) (nowDt : Int) : Bool :=
  match ud.trial_end with
  | some te => nowDt > te
  | none => false

/-- The body of `for post in list(db["scheduled"])` (deni.py 432-499),
applied to one snapshot element against the evolving state. -/
def processPost (nowTs nowDt : Int) (emit : Post → Option Nat)
    (acc : St × List Effect) (post : Post) : St × List Effect :=
  let st := acc.1
  let eff := acc.2
  if post.paused then (st, eff)
  else
    match lookupA st.users post.owner with
    | none => evictOwnerMissing st eff post
    | some ud =>
      if ud.banned then evictOwnerBanned st eff post
      else if trialOver ud nowDt && !(is_admin st post.owner) then
        evictTrialExpired st eff post
      else if nowTs ≥ post.next_time then
        dispatchPost nowTs emit st eff post
      else (st, eff)

/-- One tick of `scheduler_loop`: fold the loop body over a snapshot of
the scheduled list. -/
def tick (nowTs nowDt : Int) (emit : Post → Option Nat) (st : St)
    (eff : List Effect) : St × List Effect :=
  st.scheduled.foldl (processPost nowTs nowDt emit) (st, eff)

/-- Synchronous results of the `delete_` / `toggle_` callbacks. -/
inductive CbResult where
  | blockedBanned
  | notFound
  | denied
  | deleted
  | toggled (newPaused : Bool)
deriving DecidableEq, Repr

/-- `banned_guard(uid, ...)`, reduced to its decision. -/
def requesterBanned (st : St) (uid : String) : Bool :=
  match lookupA st.users uid with
  | some u => u.banned
  | none => false

/-- `next((x for x in db["scheduled"] if x.get("id") == pid), None)`. -/
def findPost (st : St) (pid : String) : Option Post :=
  st.scheduled.find? (fun x => x.id == pid)

/-- The owner-posts cleanup inside the delete callback (deni.py 535-538):
`if urec and pid in urec["posts"]: urec["posts"].remove(pid)`. -/
def removeFromOwnerPosts (st : St) (owner pid : String) : St :=
  match lookupA st.users owner with
  | some u =>
    if pid ∈ u.posts then
      { st with users := setA st.users owner { u with posts := u.posts.erase pid } }
    else st
  | none => st

/-- The `delete_` branch of `post_item_callbacks` (deni.py 524-547). -/
def deleteCb (st : St) (uid pid : String) : St × List Effect × CbResult :=
  if requesterBanned st uid then
    (st, [Effect.note uid NoteKind.banWarning], CbResult.blockedBanned)
  else
    match findPost st pid with
    | none => (st, [], CbResult.notFound)
    | some p =>
      if (p.owner != uid) && !(is_admin st uid) then (st, [], CbResult.denied)
      else
        let r := delete_channel_last_if_matches st [] p.channel p.id
        let st2 := { r.1 with scheduled := removeFirst r.1.scheduled p }
        let st3 := removeFromOwnerPosts st2 p.owner pid
        (st3, r.2 ++ [Effect.note p.owner NoteKind.postDeleted], CbResult.deleted)

/-- The `toggle_` branch of `post_item_callbacks` (deni.py 548-561). -/
def toggleCb (st : St) (uid pid : String) : St × List Effect × CbResult :=
  if requesterBanned st uid then
    (st, [Effect.note uid NoteKind.banWarning], CbResult.blockedBanned)
  else
    match findPost st pid with
    | none => (st, [], CbResult.notFound)
    | some p =>
      if (p.owner != uid) && !(is_admin st uid) then (st, [], CbResult.denied)
      else
        let p' := { p with paused := !p.paused }
        ({ st with scheduled := replaceFirst st.scheduled p p' }, [],
         CbResult.toggled p'.paused)

/-- `str(int(time.time()*1000))`: the post id is the creation time in
milliseconds rendered in decimal (deni.py 954). -/
def genId (tMs : Nat) : String := toString tMs

/-- The post dict built by `post_receive_channel` (deni.py 953-967):
`next_time` starts at the creation instant. -/
def mkPost (tMs : Nat) (owner channel : String) (kind : ContentKind)
    (text : String) (photo : Option String) (caption : String)
    (minute : Nat) (nowTs : Int) : Post :=
  { id := genId tMs, owner := owner, channel := channel, kind := kind,
    text := text, photo := photo, caption := caption, minute := minute,
    next_time := nowTs, paused := false, last_message_id := none }

/-- Registration of a freshly built post (deni.py 969-972): `ensure_user`
then append the id to the owner's posts and the post to the store.
`newTrialEnd` is the trial granted when `ensure_user` creates the owner. -/
def createPost (st : St) (p : Post) (newTrialEnd : Int) : St :=
  match lookupA st.users p.owner with
  | some u =>
    { st with users := setA st.users p.owner { u with posts := u.posts ++ [p.id] },
              scheduled := st.scheduled ++ [p] }
  | none =>
    { st with
        users := setA st.users p.owner
          { banned := false, trial_end := some newTrialEnd, posts := [p.id] },
        scheduled := st.scheduled ++ [p] }

/-- The operations that touch the posting subsystem's state. -/
inductive Op where
  | tickOp (nowTs nowDt : Int) (emit : Post → Option Nat)
  | deleteOp (uid pid : String)
  | toggleOp (uid pid : String)
  | createOp (p : Post) (newTrialEnd : Int)

/-- Run one operation, threading state and the global effect trace. -/
def runOp (acc : St × List Effect) : Op → St × List Effect
  | Op.tickOp nowTs nowDt emit => tick nowTs nowDt emit acc.1 acc.2
  | Op.deleteOp uid pid =>
    let r := deleteCb acc.1 uid pid
    (r.1, acc.2 ++ r.2.1)
  | Op.toggleOp uid pid =>
    let r := toggleCb acc.1 uid pid
    (r.1, acc.2 ++ r.2.1)
  | Op.createOp p te => (createPost acc.1 p te, acc.2)

/-- Run a sequence of operations. -/
def runOps (acc : St × List Effect) (ops : List Op) : St × List Effect :=
  ops.foldl runOp acc

/-- One step of the last-send scan of an effect trace. -/
def sentStep (ch : String) (acc : Option (String × Nat)) : Effect → Option (String × Nat)
  | Effect.sent _ c pid mid => if c = ch then some (pid, mid) else acc
  | _ => acc

/-- The (post id, message id) of the last successful emission to a
channel recorded in an effect trace. -/
def lastSent (effs : List Effect) (ch : String) : Option (String × Nat) :=
  effs.foldl (sentStep ch) none

/-- `DEFAULT_DB` restricted to the subsystem's keys: everything empty
except the configured admin list. -/
def initSt (admins : List String) : St :=
  { users := [], scheduled := [], channel_last := [], admins := admins }

/-- Keys of an association list. -/
def keysA {β : Type} (l : List (String × β)) : List String :=
  l.map Prod.fst

/-- An effect list containing no successful-send record. -/
def NoSent (l : List Effect) : Prop :=
  ∀ e ∈ l, ∀ (t : Int) (ch pid : String) (mid : Nat), e ≠ Effect.sent t ch pid mid

/-- The channel-last invariant, on the `channel_last` component: keys
are unique (one entry per channel) and every entry records exactly the
last successful send to its channel. -/
def ChanInvC (cl : List (String × ChanInfo)) (effs : List Effect) : Prop :=
  (keysA cl).Nodup ∧
  ∀ ch info, lookupA cl ch = some info →
    lastSent effs ch = some (info.post_id, info.message_id)

/-- Every scheduled post carrying the id `pid` has `next_time ≥ T`. -/
def NextLBL (l : List Post) (pid : String) (T : Int) : Prop :=
  ∀ q ∈ l, q.id = pid → T ≤ q.next_time

/-- Every recorded send of the post id `pid` happened at time `≥ T`. -/
def SentLB (effs : List Effect) (pid : String) (T : Int) : Prop :=
  ∀ (t : Int) (ch : String) (mid : Nat), Effect.sent t ch pid mid ∈ effs → T ≤ t

/-! Concrete fixtures for counterexamples and witnesses. -/

/-- A banned user owning post id 6. -/
def bannedOwner : UserRec := { banned := true, trial_end := none, posts := ["6"] }

/-- A paused post owned by the banned user 3. -/
def pausedPost : Post :=
  { id := "7", owner := "3", channel := "ch", kind := ContentKind.text, text := "t",
    photo := none, caption := "", minute := 5, next_time := 0, paused := true,
    last_message_id := none }

/-- A non-paused post owned by the banned user 3. -/
def activePost : Post :=
  { id := "6", owner := "3", channel := "ch", kind := ContentKind.text, text := "t",
    photo := none, caption := "", minute := 5, next_time := 0, paused := false,
    last_message_id := none }

/-- Store holding only the paused post of the banned owner. -/
def stPausedBanned : St :=
  { users := [⟨"3", bannedOwner⟩], scheduled := [pausedPost], channel_last := [],
    admins := [] }

/-- Store holding only the active post of the banned owner. -/
def stActiveBanned : St :=
  { users := [⟨"3", bannedOwner⟩], scheduled := [activePost], channel_last := [],
    admins := [] }

/-- A user in good standing owning post id 6. -/
def goodOwner : UserRec := { banned := false, trial_end := none, posts := ["6"] }

/-- A due, eligible post owned by user 1. -/
def okPost : Post :=
  { id := "6", owner := "1", channel := "ch", kind := ContentKind.text, text := "t",
    photo := none, caption := "", minute := 5, next_time := 0, paused := false,
    last_message_id := none }

/-- Store holding the due post of the user in good standing. -/
def stOk : St :=
  { users := [⟨"1", goodOwner⟩], scheduled := [okPost], channel_last := [],
    admins := [] }

/-- A user whose trial can expire, owning post id 8. -/
def trialOwner : UserRec := { banned := false, trial_end := some 10, posts := ["8"] }

/-- The trial user's post, currently owning the channel-last entry. -/
def trialPost : Post :=
  { id := "8", owner := "4", channel := "ch", kind := ContentKind.text, text := "t",
    photo := none, caption := "", minute := 5, next_time := 0, paused := false,
    last_message_id := some 42 }

/-- Store holding the trial user's post with a matching channel-last entry. -/
def stTrial : St :=
  { users := [⟨"4", trialOwner⟩], scheduled := [trialPost],
    channel_last := [⟨"ch", ChanInfo.mk "8" 42⟩], admins := [] }

/-- A two-operation demonstration run: create a post, then tick once
with a succeeding emission returning message id 9. -/
def demoOps : List Op :=
  [Op.createOp okPost 100, Op.tickOp 5 5 (fun _ => some 9)]

/-! ### Basic facts about the embedded operations -/

theorem dclm_scheduled (st : St) (eff : List Effect) (ch pid : String) :
    ((delete_channel_last_if_matches st eff ch pid).1).scheduled = st.scheduled := by
  unfold delete_channel_last_if_matches
  cases lookupA st.channel_last ch with
  | none => rfl
  | some info =>
    by_cases h : info.post_id = pid <;> simp [h]

theorem dclm_users (st : St) (eff : List Effect) (ch pid : String) :
    ((delete_channel_last_if_matches st eff ch pid).1).users = st.users := by
  unfold delete_channel_last_if_matches
  cases lookupA st.channel_last ch with
  | none => rfl
  | some info =>
    by_cases h : info.post_id = pid <;> simp [h]

theorem dclm_admins (st : St) (eff : List Effect) (ch pid : String) :
    ((delete_channel_last_if_matches st eff ch pid).1).admins = st.admins := by
  unfold delete_channel_last_if_matches
  cases lookupA st.channel_last ch with
  | none => rfl
  | some info =>
    by_cases h : info.post_id = pid <;> simp [h]

theorem processPost_of_paused (nowTs nowDt : Int) (emit : Post → Option Nat)
    (acc : St × List Effect) (post : Post) (h : post.paused = true) :
    processPost nowTs nowDt emit acc post = acc := by
  unfold processPost
  simp [h]

theorem processPost_of_ownerMissing (nowTs nowDt : Int) (emit : Post → Option Nat)
    (st : St) (eff : List Effect) (post : Post) (hp : post.paused = false)
    (ho : lookupA st.users post.owner = none) :
    processPost nowTs nowDt emit (st, eff) post =
      ({ st with scheduled := removeFirst st.scheduled post }, eff) := by
  unfold processPost
  simp [hp, ho, evictOwnerMissing]

theorem processPost_of_banned (nowTs nowDt : Int) (emit : Post → Option Nat)
    (st : St) (eff : List Effect) (post : Post) (ud : UserRec)
    (hp : post.paused = false) (ho : lookupA st.users post.owner = some ud)
    (hb : ud.banned = true) :
    processPost nowTs nowDt emit (st, eff) post = evictOwnerBanned st eff post := by
  unfold processPost
  simp [hp, ho, hb]

theorem processPost_of_trialExpired (nowTs nowDt : Int) (emit : Post → Option Nat)
    (st : St) (eff : List Effect) (post : Post) (ud : UserRec)
    (hp : post.paused = false) (ho : lookupA st.users post.owner = some ud)
    (hb : ud.banned = false) (ht : trialOver ud nowDt = true)
    (ha : is_admin st post.owner = false) :
    processPost nowTs nowDt emit (st, eff) post = evictTrialExpired st eff post := by
  unfold processPost
  simp [hp, ho, hb, ht, ha]

theorem processPost_of_due (nowTs nowDt : Int) (emit : Post → Option Nat)
    (st : St) (eff : List Effect) (post : Post) (ud : UserRec)
    (hp : post.paused = false) (ho : lookupA st.users post.owner = some ud)
    (hb : ud.banned = false)
    (ht : trialOver ud nowDt = false ∨ is_admin st post.owner = true)
    (hd : nowTs ≥ post.next_time) :
    processPost nowTs nowDt emit (st, eff) post = dispatchPost nowTs emit st eff post := by
  unfold processPost
  rcases ht with ht | ht <;> simp [hp, ho, hb, ht, hd]

theorem processPost_of_notDue (nowTs nowDt : Int) (emit : Post → Option Nat)
    (st : St) (eff : List Effect) (post : Post) (ud : UserRec)
    (hp : post.paused = false) (ho : lookupA st.users post.owner = some ud)
    (hb : ud.banned = false)
    (ht : trialOver ud nowDt = false ∨ is_admin st post.owner = true)
    (hd : ¬ nowTs ≥ post.next_time) :
    processPost nowTs nowDt emit (st, eff) post = (st, eff) := by
  unfold processPost
  rcases ht with ht | ht <;> simp [hp, ho, hb, ht, hd]

theorem lookupA_setA_self {β : Type} (l : List (String × β)) (k : String) (v : β) :
    lookupA (setA l k v) k = some v := by
  induction l with
  | nil => simp [setA, lookupA]
  | cons kv rest ih =>
    obtain ⟨k0, v0⟩ := kv
    by_cases h : k0 = k <;> simp [setA, lookupA, h, ih]

theorem lookupA_setA_ne {β : Type} (l : List (String × β)) (k k' : String) (v : β)
    (h : k' ≠ k) : lookupA (setA l k v) k' = lookupA l k' := by
  have h' : ¬ k = k' := fun hh => h hh.symm
  induction l with
  | nil => simp [setA, lookupA, h']
  | cons kv rest ih =>
    obtain ⟨k0, v0⟩ := kv
    by_cases h0 : k0 = k
    · subst h0
      simp [setA, lookupA, h']
    · simp [setA, lookupA, h0, ih]

theorem lookupA_eraseA_ne {β : Type} (l : List (String × β)) (k k' : String)
    (h : k' ≠ k) : lookupA (eraseA l k) k' = lookupA l k' := by
  have h' : ¬ k = k' := fun hh => h hh.symm
  induction l with
  | nil => simp [eraseA]
  | cons kv rest ih =>
    obtain ⟨k0, v0⟩ := kv
    by_cases h0 : k0 = k
    · subst h0
      simp [eraseA, lookupA, h']
    · simp [eraseA, lookupA, h0, ih]

theorem lookupA_eq_none_of_not_mem {β : Type} (l : List (String × β)) (k : String)
    (h : k ∉ keysA l) : lookupA l k = none := by
  induction l with
  | nil => rfl
  | cons kv rest ih =>
    obtain ⟨k0, v0⟩ := kv
    simp only [keysA, List.map_cons, List.mem_cons, not_or] at h
    have hne : ¬ k0 = k := fun hh => h.1 hh.symm
    simp only [lookupA, if_neg hne]
    exact ih (by simpa [keysA] using h.2)

theorem lookupA_eraseA_self {β : Type} (l : List (String × β)) (k : String)
    (h : (keysA l).Nodup) : lookupA (eraseA l k) k = none := by
  induction l with
  | nil => rfl
  | cons kv rest ih =>
    obtain ⟨k0, v0⟩ := kv
    simp only [keysA, List.map_cons, List.nodup_cons] at h
    by_cases h0 : k0 = k
    · subst h0
      simp only [eraseA, if_pos rfl]
      exact lookupA_eq_none_of_not_mem rest k0 (by simpa [keysA] using h.1)
    · simp only [eraseA, if_neg h0, lookupA, if_neg h0]
      exact ih h.2

theorem keysA_eraseA_sublist {β : Type} (l : List (String × β)) (k : String) :
    (keysA (eraseA l k)).Sublist (keysA l) := by
  induction l with
  | nil => simp [eraseA, keysA]
  | cons kv rest ih =>
    obtain ⟨k0, v0⟩ := kv
    by_cases h0 : k0 = k
    · simp only [eraseA, if_pos h0, keysA, List.map_cons]
      exact List.sublist_cons_self _ _
    · simp only [eraseA, if_neg h0, keysA, List.map_cons]
      exact List.Sublist.cons₂ _ ih

theorem nodup_keysA_eraseA {β : Type} (l : List (String × β)) (k : String)
    (h : (keysA l).Nodup) : (keysA (eraseA l k)).Nodup :=
  (keysA_eraseA_sublist l k).nodup h

theorem keysA_setA {β : Type} (l : List (String × β)) (k : String) (v : β) :
    keysA (setA l k v) = if k ∈ keysA l then keysA l else keysA l ++ [k] := by
  induction l with
  | nil => simp [setA, keysA]
  | cons kv rest ih =>
    obtain ⟨k0, v0⟩ := kv
    by_cases h0 : k0 = k
    · subst h0
      simp [setA, keysA]
    · simp only [setA, if_neg h0, keysA, List.map_cons] at ih ⊢
      rw [ih]
      by_cases hm : k ∈ List.map Prod.fst rest
      · rw [if_pos hm, if_pos (List.mem_cons_of_mem _ hm)]
      · rw [if_neg hm, if_neg ?_, List.cons_append]
        intro hc
        rcases List.mem_cons.mp hc with hc | hc
        · exact h0 hc.symm
        · exact hm hc

theorem nodup_keysA_setA {β : Type} (l : List (String × β)) (k : String) (v : β)
    (h : (keysA l).Nodup) : (keysA (setA l k v)).Nodup := by
  rw [keysA_setA]
  by_cases hm : k ∈ keysA l
  · rw [if_pos hm]
    exact h
  · rw [if_neg hm]
    simp [List.nodup_append, h, hm]

theorem processPost_users (nowTs nowDt : Int) (emit : Post → Option Nat)
    (acc : St × List Effect) (post : Post) :
    (processPost nowTs nowDt emit acc post).1.users = acc.1.users := by
  obtain ⟨st, eff⟩ := acc
  unfold processPost
  by_cases hp : post.paused = true
  · simp [hp]
  · simp only [hp, Bool.false_eq_true, if_false]
    cases ho : lookupA st.users post.owner with
    | none => simp [evictOwnerMissing]
    | some ud =>
      by_cases hb : ud.banned = true
      · simp [hb, evictOwnerBanned, dclm_users]
      · by_cases ht : (trialOver ud nowDt && !(is_admin st post.owner)) = true
        · simp [hb, ht, evictTrialExpired, dclm_users]
        · by_cases hd : nowTs ≥ post.next_time
          · simp only [hb, Bool.false_eq_true, if_false, ht, hd, if_true]
            unfold dispatchPost
            cases lookupA st.channel_last post.channel <;>
              cases emit post <;> simp
          · simp [hb, ht, hd]

theorem processPost_admins (nowTs nowDt : Int) (emit : Post → Option Nat)
    (acc : St × List Effect) (post : Post) :
    (processPost nowTs nowDt emit acc post).1.admins = acc.1.admins := by
  obtain ⟨st, eff⟩ := acc
  unfold processPost
  by_cases hp : post.paused = true
  · simp [hp]
  · simp only [hp, Bool.false_eq_true, if_false]
    cases ho : lookupA st.users post.owner with
    | none => simp [evictOwnerMissing]
    | some ud =>
      by_cases hb : ud.banned = true
      · simp [hb, evictOwnerBanned, dclm_admins]
      · by_cases ht : (trialOver ud nowDt && !(is_admin st post.owner)) = true
        · simp [hb, ht, evictTrialExpired, dclm_admins]
        · by_cases hd : nowTs ≥ post.next_time
          · simp only [hb, Bool.false_eq_true, if_false, ht, hd, if_true]
            unfold dispatchPost
            cases lookupA st.channel_last post.channel <;>
              cases emit post <;> simp
          · simp [hb, ht, hd]

theorem foldl_processPost_users (nowTs nowDt : Int) (emit : Post → Option Nat)
    (posts : List Post) (acc : St × List Effect) :
    (posts.foldl (processPost nowTs nowDt emit) acc).1.users = acc.1.users := by
  induction posts generalizing acc with
  | nil => rfl
  | cons q rest ih => rw [List.foldl_cons, ih, processPost_users]

theorem tick_users (nowTs nowDt : Int) (emit : Post → Option Nat) (st : St)
    (eff : List Effect) : (tick nowTs nowDt emit st eff).1.users = st.users :=
  foldl_processPost_users nowTs nowDt emit st.scheduled (st, eff)

theorem dclm_of_match (st : St) (eff : List Effect) (ch pid : String) (info : ChanInfo)
    (hl : lookupA st.channel_last ch = some info) (he : info.post_id = pid) :
    delete_channel_last_if_matches st eff ch pid =
      ({ st with channel_last := eraseA st.channel_last ch },
       eff ++ [Effect.deleteMsg ch info.message_id]) := by
  unfold delete_channel_last_if_matches
  rw [hl]
  simp [he]

/-! ### C3 -/

/-- C3 is false on the code: a paused post whose owner is banned is not
evicted — a tick leaves the store unchanged, because `scheduler_loop`
checks `paused` before any owner check (deni.py 433-434). -/
theorem paused_banned_post_not_evicted_cex :
    pausedPost.paused = true ∧ bannedOwner.banned = true ∧
    lookupA stPausedBanned.users pausedPost.owner = some bannedOwner ∧
    tick 1000 1000 (fun _ => none) stPausedBanned [] = (stPausedBanned, []) := by
  refine ⟨rfl, rfl, rfl, ?_⟩
  rfl

/-- C3 (amended): the paused flag is consulted first — a paused post is
skipped with no state change even when its owner is missing, banned or
trial-expired; the owner checks apply only to non-paused posts, and a
non-paused post with a missing, banned, or trial-expired non-admin
owner is removed from the scheduled store by its tick step. -/
theorem paused_flag_checked_first (nowTs nowDt : Int) (emit : Post → Option Nat)
    (st : St) (eff : List Effect) (post : Post) :
    (post.paused = true → processPost nowTs nowDt emit (st, eff) post = (st, eff)) ∧
    (post.paused = false →
      (lookupA st.users post.owner = none ∨
        ∃ ud, lookupA st.users post.owner = some ud ∧
          (ud.banned = true ∨
            (ud.banned = false ∧ trialOver ud nowDt = true ∧
              is_admin st post.owner = false))) →
      (processPost nowTs nowDt emit (st, eff) post).1.scheduled =
        removeFirst st.scheduled post) := by
  constructor
  · exact fun h => processPost_of_paused nowTs nowDt emit (st, eff) post h
  · rintro hp (ho | ⟨ud, ho, hb | ⟨hb, ht, ha⟩⟩)
    · rw [processPost_of_ownerMissing nowTs nowDt emit st eff post hp ho]
    · rw [processPost_of_banned nowTs nowDt emit st eff post ud hp ho hb]
      simp [evictOwnerBanned, dclm_scheduled]
    · rw [processPost_of_trialExpired nowTs nowDt emit st eff post ud hp ho hb ht ha]
      simp [evictTrialExpired, dclm_scheduled]

/-- Witness instantiating `paused_flag_checked_first` on the concrete
paused post of a banned owner. -/
theorem paused_flag_checked_first_witness :
    processPost 1000 1000 (fun _ => none) (stPausedBanned, []) pausedPost =
      (stPausedBanned, []) :=
  (paused_flag_checked_first 1000 1000 (fun _ => none) stPausedBanned []
    pausedPost).1 rfl

/-! ### C4 -/

/-- C4 is false on the code: evicting the banned owner's post removes it
from the scheduled store but leaves its id in the owner's posts list —
no scheduler eviction path touches `owner["posts"]` (deni.py 438-470). -/
theorem eviction_keeps_owner_posts_cex :
    activePost.paused = false ∧ bannedOwner.banned = true ∧
    (tick 1000 1000 (fun _ => none) stActiveBanned []).1.scheduled = [] ∧
    lookupA (tick 1000 1000 (fun _ => none) stActiveBanned []).1.users "3" =
      some bannedOwner ∧
    activePost.id ∈ bannedOwner.posts := by
  refine ⟨rfl, rfl, ?_, ?_, ?_⟩ <;> decide

/-- C4 (amended): a tick-step eviction removes the post from the
scheduled store but (i) only the banned-owner and trial-expired paths
clear a matching channel-last entry (deleting its message best-effort);
the owner-missing path leaves `channel_last` untouched; and (ii) no
eviction path mutates the user records, so the post id stays in its
owner's posts list. -/
theorem eviction_cleanup_incomplete (nowTs nowDt : Int) (emit : Post → Option Nat)
    (st : St) (eff : List Effect) (post : Post) (hp : post.paused = false)
    (hnodup : (keysA st.channel_last).Nodup) :
    (lookupA st.users post.owner = none →
      processPost nowTs nowDt emit (st, eff) post =
        ({ st with scheduled := removeFirst st.scheduled post }, eff)) ∧
    (∀ ud, lookupA st.users post.owner = some ud →
      (ud.banned = true ∨
        (ud.banned = false ∧ trialOver ud nowDt = true ∧
          is_admin st post.owner = false)) →
      (processPost nowTs nowDt emit (st, eff) post).1.scheduled =
          removeFirst st.scheduled post ∧
      (processPost nowTs nowDt emit (st, eff) post).1.users = st.users ∧
      (∀ info, lookupA st.channel_last post.channel = some info →
        info.post_id = post.id →
          lookupA (processPost nowTs nowDt emit (st, eff) post).1.channel_last
              post.channel = none ∧
          Effect.deleteMsg post.channel info.message_id ∈
            (processPost nowTs nowDt emit (st, eff) post).2)) := by
  constructor
  · exact fun ho => processPost_of_ownerMissing nowTs nowDt emit st eff post hp ho
  · rintro ud ho (hb | ⟨hb, ht, ha⟩)
    · rw [processPost_of_banned nowTs nowDt emit st eff post ud hp ho hb]
      refine ⟨by simp [evictOwnerBanned, dclm_scheduled], by simp [evictOwnerBanned, dclm_users], ?_⟩
      intro info hl he
      have hd := dclm_of_match st eff post.channel post.id info hl he
      constructor
      · simp [evictOwnerBanned, hd, lookupA_eraseA_self _ _ hnodup]
      · simp [evictOwnerBanned, hd]
    · rw [processPost_of_trialExpired nowTs nowDt emit st eff post ud hp ho hb ht ha]
      refine ⟨by simp [evictTrialExpired, dclm_scheduled], by simp [evictTrialExpired, dclm_users], ?_⟩
      intro info hl he
      have hd := dclm_of_match st eff post.channel post.id info hl he
      constructor
      · simp [evictTrialExpired, hd, lookupA_eraseA_self _ _ hnodup]
      · simp [evictTrialExpired, hd]

/-- Witness instantiating `eviction_cleanup_incomplete` on the concrete
banned-owner eviction. -/
theorem eviction_cleanup_incomplete_witness :
    (processPost 1000 1000 (fun _ => none) (stActiveBanned, []) activePost).1.scheduled =
        removeFirst stActiveBanned.scheduled activePost ∧
    (processPost 1000 1000 (fun _ => none) (stActiveBanned, []) activePost).1.users =
        stActiveBanned.users := by
  have h := (eviction_cleanup_incomplete 1000 1000 (fun _ => none) stActiveBanned []
      activePost rfl List.nodup_nil).2 bannedOwner rfl (Or.inl rfl)
  exact ⟨h.1, h.2.1⟩

theorem dispatchPost_failure (nowTs : Int) (emit : Post → Option Nat) (st : St)
    (eff : List Effect) (post : Post) (he : emit post = none) :
    dispatchPost nowTs emit st eff post =
      ({ st with scheduled := replaceFirst st.scheduled post { post with paused := true } },
       (match lookupA st.channel_last post.channel with
        | some prev => eff ++ [Effect.deleteMsg post.channel prev.message_id]
        | none => eff) ++ [Effect.note post.owner NoteKind.autoPaused]) := by
  unfold dispatchPost
  rw [he]

theorem dispatchPost_success (nowTs : Int) (emit : Post → Option Nat) (st : St)
    (eff : List Effect) (post : Post) (mid : Nat) (he : emit post = some mid) :
    dispatchPost nowTs emit st eff post =
      ({ st with
          channel_last := setA st.channel_last post.channel (ChanInfo.mk post.id mid),
          scheduled := replaceFirst st.scheduled post
            { post with last_message_id := some mid,
                        next_time := nowTs + (post.minute : Int) * 60 } },
       (match lookupA st.channel_last post.channel with
        | some prev => eff ++ [Effect.deleteMsg post.channel prev.message_id]
        | none => eff) ++ [Effect.sent nowTs post.channel post.id mid]) := by
  unfold dispatchPost
  rw [he]

/-! ### C5 -/

/-- C5: when emission of a due, eligible post fails, the tick step
replaces the post in the store by its paused copy, leaves users and
`channel_last` untouched, notifies the owner of the auto-pause, records
no send; every later tick step skips the paused copy unchanged, and
only an explicit toggle (resume) call flips the flag back. -/
theorem dispatch_failure_pauses (nowTs nowDt : Int) (emit : Post → Option Nat)
    (st : St) (eff : List Effect) (post : Post) (ud : UserRec)
    (hp : post.paused = false) (ho : lookupA st.users post.owner = some ud)
    (hb : ud.banned = false)
    (ht : trialOver ud nowDt = false ∨ is_admin st post.owner = true)
    (hd : nowTs ≥ post.next_time) (he : emit post = none) :
    (processPost nowTs nowDt emit (st, eff) post).1.scheduled =
        replaceFirst st.scheduled post { post with paused := true } ∧
    (processPost nowTs nowDt emit (st, eff) post).1.users = st.users ∧
    (processPost nowTs nowDt emit (st, eff) post).1.channel_last = st.channel_last ∧
    Effect.note post.owner NoteKind.autoPaused ∈
      (processPost nowTs nowDt emit (st, eff) post).2 ∧
    (∀ (t : Int) (c pid : String) (mid : Nat),
      Effect.sent t c pid mid ∈ (processPost nowTs nowDt emit (st, eff) post).2 →
      Effect.sent t c pid mid ∈ eff) ∧
    (∀ (nowTs2 nowDt2 : Int) (emit2 : Post → Option Nat) (acc : St × List Effect),
      processPost nowTs2 nowDt2 emit2 acc { post with paused := true } = acc) ∧
    (∀ st2 : St, requesterBanned st2 post.owner = false →
      findPost st2 post.id = some { post with paused := true } →
      toggleCb st2 post.owner post.id =
        ({ st2 with scheduled := replaceFirst st2.scheduled ({ post with paused := true }) ({ post with paused := false }) }, [],
         CbResult.toggled false)) := by
  rw [processPost_of_due nowTs nowDt emit st eff post ud hp ho hb ht hd,
      dispatchPost_failure nowTs emit st eff post he]
  refine ⟨rfl, rfl, rfl, by simp, ?_, ?_, ?_⟩
  · intro t c pid mid hm
    cases hl : lookupA st.channel_last post.channel with
    | none =>
      simp only [hl] at hm
      simpa using hm
    | some prev =>
      simp only [hl] at hm
      simpa using hm
  · intro nowTs2 nowDt2 emit2 acc
    exact processPost_of_paused nowTs2 nowDt2 emit2 acc _ rfl
  · intro st2 hban hfind
    unfold toggleCb
    rw [hban, hfind]
    simp

/-- Witness instantiating `dispatch_failure_pauses` on a concrete failing
emission. -/
theorem dispatch_failure_pauses_witness :
    (processPost 1000 1000 (fun _ => none) (stOk, []) okPost).1.scheduled =
        [{ okPost with paused := true }] ∧
    Effect.note okPost.owner NoteKind.autoPaused ∈
      (processPost 1000 1000 (fun _ => none) (stOk, []) okPost).2 := by
  have h := dispatch_failure_pauses 1000 1000 (fun _ => none) stOk [] okPost goodOwner
    rfl rfl rfl (Or.inl rfl) (by decide) rfl
  exact ⟨by rw [h.1]; rfl, h.2.2.2.1⟩

theorem dclm_of_nomatch (st : St) (eff : List Effect) (ch pid : String)
    (h : ∀ info, lookupA st.channel_last ch = some info → info.post_id ≠ pid) :
    delete_channel_last_if_matches st eff ch pid = (st, eff) := by
  unfold delete_channel_last_if_matches
  cases hl : lookupA st.channel_last ch with
  | none => rfl
  | some info => simp [h info hl]

theorem removeFirst_of_not_mem (l : List Post) (p : Post) (h : p ∉ l) :
    removeFirst l p = l := by
  induction l with
  | nil => rfl
  | cons q rest ih =>
    simp only [List.mem_cons, not_or] at h
    have hne : ¬ q = p := fun hh => h.1 hh.symm
    simp only [removeFirst, if_neg hne]
    rw [ih h.2]

theorem removeFromOwnerPosts_lookup (st : St) (owner pid : String) (u : UserRec)
    (hu : lookupA st.users owner = some u) :
    lookupA (removeFromOwnerPosts st owner pid).users owner =
      some { u with posts := u.posts.erase pid } := by
  unfold removeFromOwnerPosts
  rw [hu]
  by_cases hm : pid ∈ u.posts
  · simp [hm, lookupA_setA_self]
  · simp [hm, hu, List.erase_of_not_mem hm]

theorem removeFromOwnerPosts_scheduled (st : St) (owner pid : String) :
    (removeFromOwnerPosts st owner pid).scheduled = st.scheduled := by
  unfold removeFromOwnerPosts
  cases lookupA st.users owner with
  | none => rfl
  | some u => by_cases hm : pid ∈ u.posts <;> simp [hm]

theorem removeFromOwnerPosts_channel_last (st : St) (owner pid : String) :
    (removeFromOwnerPosts st owner pid).channel_last = st.channel_last := by
  unfold removeFromOwnerPosts
  cases lookupA st.users owner with
  | none => rfl
  | some u => by_cases hm : pid ∈ u.posts <;> simp [hm]

/-! ### C7 -/

/-- C7: a delete or toggle-pause request for an unknown post id yields
the not-found result, and one from a requester who is neither the
post's owner nor an admin yields the denial result; in all four cases
the returned state is the input state and no effect is produced. -/
theorem lifecycle_misuse_no_mutation (st : St) (uid pid : String)
    (hban : requesterBanned st uid = false) :
    (findPost st pid = none →
      deleteCb st uid pid = (st, [], CbResult.notFound) ∧
      toggleCb st uid pid = (st, [], CbResult.notFound)) ∧
    (∀ p, findPost st pid = some p → (p.owner != uid) = true →
      is_admin st uid = false →
      deleteCb st uid pid = (st, [], CbResult.denied) ∧
      toggleCb st uid pid = (st, [], CbResult.denied)) := by
  constructor
  · intro hf
    constructor
    · simp [deleteCb, hban, hf]
    · simp [toggleCb, hban, hf]
  · intro p hf hown hadmin
    constructor
    · simp [deleteCb, hban, hf, hown, hadmin]
    · simp [toggleCb, hban, hf, hown, hadmin]

/-- Witness instantiating `lifecycle_misuse_no_mutation`: an unknown id
is not-found, and a stranger's delete of post 6 is denied. -/
theorem lifecycle_misuse_no_mutation_witness :
    deleteCb stOk "9" "nope" = (stOk, [], CbResult.notFound) ∧
    deleteCb stOk "9" "6" = (stOk, [], CbResult.denied) := by
  have h1 := (lifecycle_misuse_no_mutation stOk "9" "nope" rfl).1 (by decide)
  have h2 := (lifecycle_misuse_no_mutation stOk "9" "6" rfl).2 okPost (by decide)
    (by decide) rfl
  exact ⟨h1.1, h2.1⟩

/-! ### C8 -/

/-- C8 is false on the code: an authorized explicit delete DOES send a
notification to the post's owner (deni.py 544). -/
theorem delete_notifies_owner_cex :
    (deleteCb stOk "1" "6").2.2 = CbResult.deleted ∧
    (deleteCb stOk "1" "6").2.1 = [Effect.note "1" NoteKind.postDeleted] := by
  exact ⟨rfl, rfl⟩

/-- C8 (amended): an authorized delete clears a matching channel-last
entry (best-effort deleting its message), removes the post from the
store and the id from the owner's posts list — and additionally sends
the owner a deletion notice. -/
theorem delete_cleanup_and_notice (st : St) (uid pid : String) (p : Post)
    (hban : requesterBanned st uid = false) (hf : findPost st pid = some p)
    (hauth : ((p.owner != uid) && !(is_admin st uid)) = false)
    (hnodup : (keysA st.channel_last).Nodup) :
    (deleteCb st uid pid).2.2 = CbResult.deleted ∧
    (deleteCb st uid pid).1.scheduled = removeFirst st.scheduled p ∧
    (∀ info, lookupA st.channel_last p.channel = some info → info.post_id = p.id →
      lookupA (deleteCb st uid pid).1.channel_last p.channel = none ∧
      Effect.deleteMsg p.channel info.message_id ∈ (deleteCb st uid pid).2.1) ∧
    (∀ u, lookupA st.users p.owner = some u →
      lookupA (deleteCb st uid pid).1.users p.owner =
        some { u with posts := u.posts.erase pid }) ∧
    Effect.note p.owner NoteKind.postDeleted ∈ (deleteCb st uid pid).2.1 := by
  have hstep : deleteCb st uid pid =
      (removeFromOwnerPosts
        { (delete_channel_last_if_matches st [] p.channel p.id).1 with
            scheduled := removeFirst
              (delete_channel_last_if_matches st [] p.channel p.id).1.scheduled p }
        p.owner pid,
       (delete_channel_last_if_matches st [] p.channel p.id).2 ++
         [Effect.note p.owner NoteKind.postDeleted], CbResult.deleted) := by
    simp [deleteCb, hban, hf, hauth]
  rw [hstep]
  refine ⟨rfl, ?_, ?_, ?_, ?_⟩
  · rw [removeFromOwnerPosts_scheduled]
    simp [dclm_scheduled]
  · intro info hl he
    have hd := dclm_of_match st [] p.channel p.id info hl he
    constructor
    · rw [removeFromOwnerPosts_channel_last]
      simp [hd, lookupA_eraseA_self _ _ hnodup]
    · simp [hd]
  · intro u hu
    have hu' : lookupA ({ (delete_channel_last_if_matches st [] p.channel p.id).1 with
        scheduled := removeFirst
          (delete_channel_last_if_matches st [] p.channel p.id).1.scheduled p }).users
        p.owner = some u := by
      simpa [dclm_users] using hu
    exact removeFromOwnerPosts_lookup _ p.owner pid u hu'
  · simp

/-- Witness instantiating `delete_cleanup_and_notice` on the owner's
delete of their own post. -/
theorem delete_cleanup_and_notice_witness :
    (deleteCb stOk "1" "6").2.2 = CbResult.deleted ∧
    (deleteCb stOk "1" "6").1.scheduled = removeFirst stOk.scheduled okPost ∧
    lookupA (deleteCb stOk "1" "6").1.users "1" =
      some { goodOwner with posts := goodOwner.posts.erase "6" } := by
  have h := delete_cleanup_and_notice stOk "1" "6" okPost rfl (by decide)
    (by decide) List.nodup_nil
  exact ⟨h.1, h.2.1, h.2.2.2.1 goodOwner rfl⟩

/-! ### C9 -/

/-- C9 is false on the code: the trial-expiry notification is sent
unconditionally, so evicting the same (by then absent) post a second
time emits a second notice to the owner. -/
theorem evict_absent_duplicate_notice_cex :
    trialPost ∉ (evictTrialExpired stTrial [] trialPost).1.scheduled ∧
    (evictTrialExpired (evictTrialExpired stTrial [] trialPost).1
        (evictTrialExpired stTrial [] trialPost).2 trialPost).2 =
      [Effect.deleteMsg "ch" 42, Effect.note "4" NoteKind.trialRemoved,
       Effect.note "4" NoteKind.trialRemoved] := by
  constructor
  · decide
  · rfl

/-- C9 (amended): evicting an already-absent post raises no error and
leaves the store unchanged (when the channel-last entry no longer
references it), but the owner notification is emitted unconditionally,
so a repeated eviction produces a duplicate notice. -/
theorem evict_absent_noop_but_notice (st : St) (eff : List Effect) (post : Post)
    (habs : post ∉ st.scheduled)
    (hcl : ∀ info, lookupA st.channel_last post.channel = some info →
      info.post_id ≠ post.id) :
    evictTrialExpired st eff post =
      (st, eff ++ [Effect.note post.owner NoteKind.trialRemoved]) := by
  unfold evictTrialExpired
  rw [dclm_of_nomatch st eff post.channel post.id hcl]
  simp [removeFirst_of_not_mem st.scheduled post habs]

/-- Witness instantiating `evict_absent_noop_but_notice` on the state
left by the first eviction. -/
theorem evict_absent_noop_but_notice_witness :
    evictTrialExpired (evictTrialExpired stTrial [] trialPost).1 [] trialPost =
      ((evictTrialExpired stTrial [] trialPost).1,
       [Effect.note trialPost.owner NoteKind.trialRemoved]) := by
  refine evict_absent_noop_but_notice _ [] trialPost (by decide) ?_
  intro info h
  have hnone : lookupA (evictTrialExpired stTrial [] trialPost).1.channel_last
      trialPost.channel = none := by decide
  rw [hnone] at h
  cases h

/-! ### C10 -/

/-- C10 is false on the code: two distinct creation events in the same
millisecond produce posts with the same id (deni.py 954). -/
theorem post_id_collision_cex :
    (mkPost 1700000000123 "1" "chA" ContentKind.text "a" none "" 5 0).id =
      (mkPost 1700000000123 "2" "chB" ContentKind.text "b" none "" 7 0).id ∧
    mkPost 1700000000123 "1" "chA" ContentKind.text "a" none "" 5 0 ≠
      mkPost 1700000000123 "2" "chB" ContentKind.text "b" none "" 7 0 := by
  exact ⟨rfl, by decide⟩

theorem digitChar_injOn :
    ∀ d, d < 10 → ∀ e, e < 10 → Nat.digitChar d = Nat.digitChar e → d = e := by
  decide

theorem map_digitChar_inj (l1 : List Nat) :
    ∀ l2 : List Nat, (∀ x ∈ l1, x < 10) → (∀ x ∈ l2, x < 10) →
      l1.map Nat.digitChar = l2.map Nat.digitChar → l1 = l2 := by
  induction l1 with
  | nil =>
    intro l2 _ _ h
    cases l2 with
    | nil => rfl
    | cons y ys => simp at h
  | cons x xs ih =>
    intro l2 h1 h2 h
    cases l2 with
    | nil => simp at h
    | cons y ys =>
      simp only [List.map_cons, List.cons.injEq] at h
      have hx := h1 x (List.mem_cons_self _ _)
      have hy := h2 y (List.mem_cons_self _ _)
      have hxy : x = y := digitChar_injOn x hx y hy h.1
      subst hxy
      rw [ih ys (fun z hz => h1 z (List.mem_cons_of_mem _ hz))
        (fun z hz => h2 z (List.mem_cons_of_mem _ hz)) h.2]

theorem toDigitsCore_eq_digits (f : Nat) :
    ∀ (n : Nat) (l : List Char), 0 < n → n < 10 ^ f →
      Nat.toDigitsCore 10 f n l =
        ((Nat.digits 10 n).map Nat.digitChar).reverse ++ l := by
  induction f with
  | zero =>
    intro n l hn hlt
    simp only [pow_zero] at hlt
    omega
  | succ f ih =>
    intro n l hn hlt
    have hd : Nat.digits 10 n = n % 10 :: Nat.digits 10 (n / 10) :=
      Nat.digits_def' (by norm_num) hn
    by_cases h0 : n / 10 = 0
    · rw [hd, h0]
      simp [Nat.toDigitsCore, h0]
    · have hpos : 0 < n / 10 := Nat.pos_of_ne_zero h0
      have hlt' : n / 10 < 10 ^ f := by
        rw [Nat.div_lt_iff_lt_mul (by norm_num : (0 : Nat) < 10)]
        calc n < 10 ^ (f + 1) := hlt
          _ = 10 ^ f * 10 := by ring
      simp only [Nat.toDigitsCore, h0, if_false]
      rw [ih (n / 10) (Nat.digitChar (n % 10) :: l) hpos hlt', hd]
      simp [List.append_assoc]

theorem toDigits_eq_digits (n : Nat) (hn : 0 < n) :
    Nat.toDigits 10 n = ((Nat.digits 10 n).map Nat.digitChar).reverse := by
  have hlt : n < 10 ^ (n + 1) :=
    lt_of_lt_of_le (Nat.lt_pow_self (by norm_num) n)
      (Nat.pow_le_pow_right (by norm_num) (Nat.le_succ n))
  have h := toDigitsCore_eq_digits (n + 1) n [] hn hlt
  simpa [Nat.toDigits] using h

theorem digits_eq_of_toDigits_eq (n m : Nat) (hn : 0 < n) (hm : 0 < m)
    (h : Nat.toDigits 10 n = Nat.toDigits 10 m) :
    Nat.digits 10 n = Nat.digits 10 m := by
  rw [toDigits_eq_digits n hn, toDigits_eq_digits m hm] at h
  have h2 : (Nat.digits 10 n).map Nat.digitChar = (Nat.digits 10 m).map Nat.digitChar :=
    List.reverse_injective h
  exact map_digitChar_inj (Nat.digits 10 n) (Nat.digits 10 m)
    (fun x hx => Nat.digits_lt_base (by norm_num) hx)
    (fun x hx => Nat.digits_lt_base (by norm_num) hx) h2

theorem natRepr_injective (n m : Nat) (h : Nat.repr n = Nat.repr m) : n = m := by
  have hdig : Nat.toDigits 10 n = Nat.toDigits 10 m := by
    have hdata := congrArg String.data h
    simpa [Nat.repr, List.asString] using hdata
  rcases Nat.eq_zero_or_pos n with hn | hn
  · rcases Nat.eq_zero_or_pos m with hm | hm
    · rw [hn, hm]
    · exfalso
      subst hn
      have h0 : Nat.toDigits 10 0 = [Char.ofNat 48] := by decide
      rw [h0, toDigits_eq_digits m hm] at hdig
      have h2 : (Nat.digits 10 m).map Nat.digitChar = [Char.ofNat 48] := by
        have := congrArg List.reverse hdig
        simpa using this.symm
      have h3 : (Nat.digits 10 m).map Nat.digitChar = ([0] : List Nat).map Nat.digitChar := by
        rw [h2]
        decide
      have h4 : Nat.digits 10 m = [0] :=
        map_digitChar_inj (Nat.digits 10 m) [0]
          (fun x hx => Nat.digits_lt_base (by norm_num) hx)
          (by intro x hx; simp at hx; omega) h3
      have h5 := Nat.ofDigits_digits 10 m
      rw [h4] at h5
      simp [Nat.ofDigits] at h5
      omega
  · rcases Nat.eq_zero_or_pos m with hm | hm
    · exfalso
      subst hm
      have h0 : Nat.toDigits 10 0 = [Char.ofNat 48] := by decide
      rw [h0, toDigits_eq_digits n hn] at hdig
      have h2 : (Nat.digits 10 n).map Nat.digitChar = [Char.ofNat 48] := by
        have := congrArg List.reverse hdig
        simpa using this
      have h3 : (Nat.digits 10 n).map Nat.digitChar = ([0] : List Nat).map Nat.digitChar := by
        rw [h2]
        decide
      have h4 : Nat.digits 10 n = [0] :=
        map_digitChar_inj (Nat.digits 10 n) [0]
          (fun x hx => Nat.digits_lt_base (by norm_num) hx)
          (by intro x hx; simp at hx; omega) h3
      have h5 := Nat.ofDigits_digits 10 n
      rw [h4] at h5
      simp [Nat.ofDigits] at h5
      omega
    · have h4 := digits_eq_of_toDigits_eq n m hn hm hdig
      have h5 := Nat.ofDigits_digits 10 n
      rw [h4, Nat.ofDigits_digits] at h5
      exact h5.symm

/-- C10 (amended): a post id is the creation timestamp in milliseconds
rendered in decimal, so two creation events receive the same id exactly
when they occur in the same millisecond; uniqueness across the store's
lifetime is therefore not guaranteed (and ids of posts created in
distinct milliseconds are distinct). -/
theorem post_id_eq_iff_same_ms (t1 t2 : Nat) (o1 o2 c1 c2 : String)
    (k1 k2 : ContentKind) (x1 x2 : String) (f1 f2 : Option String)
    (g1 g2 : String) (m1 m2 : Nat) (n1 n2 : Int) :
    (mkPost t1 o1 c1 k1 x1 f1 g1 m1 n1).id = (mkPost t2 o2 c2 k2 x2 f2 g2 m2 n2).id
      ↔ t1 = t2 := by
  show genId t1 = genId t2 ↔ t1 = t2
  constructor
  · exact fun h => natRepr_injective t1 t2 h
  · exact fun h => by rw [h]

/-- Witness instantiating `post_id_eq_iff_same_ms` in both directions on
concrete creation events. -/
theorem post_id_eq_iff_same_ms_witness :
    (mkPost 12 "1" "a" ContentKind.text "x" none "" 1 0).id =
      (mkPost 12 "2" "b" ContentKind.photo "y" none "" 2 9).id ∧
    (mkPost 12 "1" "a" ContentKind.text "x" none "" 1 0).id ≠
      (mkPost 13 "1" "a" ContentKind.text "x" none "" 1 0).id := by
  constructor
  · exact (post_id_eq_iff_same_ms 12 12 "1" "2" "a" "b" ContentKind.text
      ContentKind.photo "x" "y" none none "" "" 1 2 0 9).mpr rfl
  · intro h
    have := (post_id_eq_iff_same_ms 12 13 "1" "1" "a" "a" ContentKind.text
      ContentKind.text "x" "x" none none "" "" 1 1 0 0).mp h
    omega

/-! ### Membership facts for list surgery -/

theorem mem_removeFirst_subset (l : List Post) (p q : Post)
    (h : q ∈ removeFirst l p) : q ∈ l := by
  induction l with
  | nil => exact absurd h (List.not_mem_nil q)
  | cons a rest ih =>
    by_cases ha : a = p
    · simp only [removeFirst, if_pos ha] at h
      exact List.mem_cons_of_mem a h
    · simp only [removeFirst, if_neg ha, List.mem_cons] at h
      rcases h with h | h
      · exact h ▸ List.mem_cons_self a rest
      · exact List.mem_cons_of_mem a (ih h)

theorem mem_removeFirst_of_ne (l : List Post) (p q : Post)
    (hq : q ∈ l) (hne : q ≠ p) : q ∈ removeFirst l p := by
  induction l with
  | nil => exact absurd hq (List.not_mem_nil q)
  | cons a rest ih =>
    by_cases ha : a = p
    · simp only [removeFirst, if_pos ha]
      rcases List.mem_cons.mp hq with h | h
      · exact absurd (h.trans ha) hne
      · exact h
    · simp only [removeFirst, if_neg ha, List.mem_cons]
      rcases List.mem_cons.mp hq with h | h
      · exact Or.inl h
      · exact Or.inr (ih h)

theorem mem_replaceFirst (l : List Post) (p p' q : Post)
    (h : q ∈ replaceFirst l p p') : q ∈ l ∨ q = p' := by
  induction l with
  | nil => exact absurd h (List.not_mem_nil q)
  | cons a rest ih =>
    by_cases ha : a = p
    · simp only [replaceFirst, if_pos ha, List.mem_cons] at h
      rcases h with h | h
      · exact Or.inr h
      · exact Or.inl (List.mem_cons_of_mem a h)
    · simp only [replaceFirst, if_neg ha, List.mem_cons] at h
      rcases h with h | h
      · exact Or.inl (h ▸ List.mem_cons_self a rest)
      · rcases ih h with h2 | h2
        · exact Or.inl (List.mem_cons_of_mem a h2)
        · exact Or.inr h2

theorem mem_replaceFirst_of_ne (l : List Post) (p p' q : Post)
    (hq : q ∈ l) (hne : q ≠ p) : q ∈ replaceFirst l p p' := by
  induction l with
  | nil => exact absurd hq (List.not_mem_nil q)
  | cons a rest ih =>
    by_cases ha : a = p
    · simp only [replaceFirst, if_pos ha, List.mem_cons]
      rcases List.mem_cons.mp hq with h | h
      · exact absurd (h.trans ha) hne
      · exact Or.inr h
    · simp only [replaceFirst, if_neg ha, List.mem_cons]
      rcases List.mem_cons.mp hq with h | h
      · exact Or.inl h
      · exact Or.inr (ih h)

/-! ### Shape of one scheduler step -/

theorem evictOwnerBanned_shape (st : St) (effs : List Effect) (post : Post) :
    evictOwnerBanned st effs post =
      ({ st with scheduled := removeFirst st.scheduled post }, effs) ∨
    ∃ m, evictOwnerBanned st effs post =
      ({ st with channel_last := eraseA st.channel_last post.channel,
                 scheduled := removeFirst st.scheduled post },
       effs ++ [Effect.deleteMsg post.channel m]) := by
  unfold evictOwnerBanned delete_channel_last_if_matches
  cases hl : lookupA st.channel_last post.channel with
  | none => exact Or.inl rfl
  | some info =>
    by_cases he : info.post_id = post.id
    · exact Or.inr ⟨info.message_id, by simp [he]⟩
    · exact Or.inl (by simp [he])

theorem evictTrialExpired_shape (st : St) (effs : List Effect) (post : Post) :
    evictTrialExpired st effs post =
      ({ st with scheduled := removeFirst st.scheduled post },
       effs ++ [Effect.note post.owner NoteKind.trialRemoved]) ∨
    ∃ m, evictTrialExpired st effs post =
      ({ st with channel_last := eraseA st.channel_last post.channel,
                 scheduled := removeFirst st.scheduled post },
       effs ++ [Effect.deleteMsg post.channel m,
                Effect.note post.owner NoteKind.trialRemoved]) := by
  unfold evictTrialExpired delete_channel_last_if_matches
  cases hl : lookupA st.channel_last post.channel with
  | none => exact Or.inl rfl
  | some info =>
    by_cases he : info.post_id = post.id
    · exact Or.inr ⟨info.message_id, by simp [he]⟩
    · exact Or.inl (by simp [he])

theorem dispatchPost_shape_success (nowTs : Int) (emit : Post → Option Nat)
    (st : St) (effs : List Effect) (post : Post) (mid : Nat)
    (he : emit post = some mid) :
    ∃ pre : List Effect,
      (∀ e ∈ pre, ∀ (t : Int) (ch pid : String) (mid2 : Nat),
        e ≠ Effect.sent t ch pid mid2) ∧
      dispatchPost nowTs emit st effs post =
        ({ st with
            channel_last := setA st.channel_last post.channel (ChanInfo.mk post.id mid),
            scheduled := replaceFirst st.scheduled post
              ({ post with last_message_id := some mid,
                           next_time := nowTs + (post.minute : Int) * 60 }) },
         effs ++ (pre ++ [Effect.sent nowTs post.channel post.id mid])) := by
  unfold dispatchPost
  rw [he]
  cases hl : lookupA st.channel_last post.channel with
  | none => exact ⟨[], by simp, by simp⟩
  | some prev =>
    refine ⟨[Effect.deleteMsg post.channel prev.message_id], by simp, ?_⟩
    simp

theorem dispatchPost_shape_failure (nowTs : Int) (emit : Post → Option Nat)
    (st : St) (effs : List Effect) (post : Post) (he : emit post = none) :
    ∃ more : List Effect,
      (∀ e ∈ more, ∀ (t : Int) (ch pid : String) (mid2 : Nat),
        e ≠ Effect.sent t ch pid mid2) ∧
      dispatchPost nowTs emit st effs post =
        ({ st with scheduled := replaceFirst st.scheduled post ({ post with paused := true }) },
         effs ++ more) := by
  unfold dispatchPost
  rw [he]
  cases hl : lookupA st.channel_last post.channel with
  | none =>
    exact ⟨[Effect.note post.owner NoteKind.autoPaused], by simp, by simp⟩
  | some prev =>
    refine ⟨[Effect.deleteMsg post.channel prev.message_id,
             Effect.note post.owner NoteKind.autoPaused], by simp, ?_⟩
    simp

/-- Case analysis of one scheduler-loop body step: the effect trace only
grows; the new effects contain either no send record, with the channel
map unchanged or erased at the post's channel and the scheduled list
unchanged, shrunk by the post, or with the post auto-paused — or end in
exactly one send record, produced by the successful-dispatch branch
with its bookkeeping. -/
theorem processPost_main_cases (nowTs nowDt : Int) (emit : Post → Option Nat)
    (st : St) (effs : List Effect) (post : Post) :
    ∃ more : List Effect,
      (processPost nowTs nowDt emit (st, effs) post).2 = effs ++ more ∧
      ((NoSent more ∧
        ((processPost nowTs nowDt emit (st, effs) post).1.channel_last =
            st.channel_last ∨
         (processPost nowTs nowDt emit (st, effs) post).1.channel_last =
            eraseA st.channel_last post.channel) ∧
        ((processPost nowTs nowDt emit (st, effs) post).1.scheduled = st.scheduled ∨
         (processPost nowTs nowDt emit (st, effs) post).1.scheduled =
            removeFirst st.scheduled post ∨
         ((processPost nowTs nowDt emit (st, effs) post).1.scheduled =
             replaceFirst st.scheduled post ({ post with paused := true }) ∧
           post.paused = false))) ∨
       (∃ (mid : Nat) (pre : List Effect),
         more = pre ++ [Effect.sent nowTs post.channel post.id mid] ∧ NoSent pre ∧
         post.paused = false ∧ nowTs ≥ post.next_time ∧
         (processPost nowTs nowDt emit (st, effs) post).1.channel_last =
           setA st.channel_last post.channel (ChanInfo.mk post.id mid) ∧
         (processPost nowTs nowDt emit (st, effs) post).1.scheduled =
           replaceFirst st.scheduled post
             ({ post with last_message_id := some mid,
                          next_time := nowTs + (post.minute : Int) * 60 }))) := by
  by_cases hp : post.paused = true
  · rw [processPost_of_paused nowTs nowDt emit (st, effs) post hp]
    exact ⟨[], by simp, Or.inl ⟨by simp [NoSent], Or.inl rfl, Or.inl rfl⟩⟩
  · have hp' : post.paused = false := by
      revert hp
      cases post.paused <;> simp
    cases ho : lookupA st.users post.owner with
    | none =>
      rw [processPost_of_ownerMissing nowTs nowDt emit st effs post hp' ho]
      exact ⟨[], by simp, Or.inl ⟨by simp [NoSent], Or.inl rfl, Or.inr (Or.inl rfl)⟩⟩
    | some ud =>
      by_cases hb : ud.banned = true
      · rw [processPost_of_banned nowTs nowDt emit st effs post ud hp' ho hb]
        rcases evictOwnerBanned_shape st effs post with h | ⟨m, h⟩
        · rw [h]
          exact ⟨[], by simp, Or.inl ⟨by simp [NoSent], Or.inl rfl, Or.inr (Or.inl rfl)⟩⟩
        · rw [h]
          exact ⟨[Effect.deleteMsg post.channel m], rfl,
            Or.inl ⟨by simp [NoSent], Or.inr rfl, Or.inr (Or.inl rfl)⟩⟩
      · have hb' : ud.banned = false := by
          revert hb
          cases ud.banned <;> simp
        by_cases htr : (trialOver ud nowDt && !(is_admin st post.owner)) = true
        · have hto : trialOver ud nowDt = true := (Bool.and_eq_true_iff.mp htr).1
          have hia : is_admin st post.owner = false := by
            have h2 := (Bool.and_eq_true_iff.mp htr).2
            revert h2
            cases is_admin st post.owner <;> simp
          rw [processPost_of_trialExpired nowTs nowDt emit st effs post ud hp' ho hb' hto hia]
          rcases evictTrialExpired_shape st effs post with h | ⟨m, h⟩
          · rw [h]
            exact ⟨[Effect.note post.owner NoteKind.trialRemoved], rfl,
              Or.inl ⟨by simp [NoSent], Or.inl rfl, Or.inr (Or.inl rfl)⟩⟩
          · rw [h]
            exact ⟨[Effect.deleteMsg post.channel m,
                    Effect.note post.owner NoteKind.trialRemoved], rfl,
              Or.inl ⟨by simp [NoSent], Or.inr rfl, Or.inr (Or.inl rfl)⟩⟩
        · have htr' : (trialOver ud nowDt && !(is_admin st post.owner)) = false := by
            revert htr
            cases (trialOver ud nowDt && !(is_admin st post.owner)) <;> simp
          have hor : trialOver ud nowDt = false ∨ is_admin st post.owner = true := by
            cases hto : trialOver ud nowDt with
            | false => exact Or.inl rfl
            | true =>
              right
              rw [hto] at htr'
              simpa using htr'
          by_cases hd : nowTs ≥ post.next_time
          · rw [processPost_of_due nowTs nowDt emit st effs post ud hp' ho hb' hor hd]
            cases hemit : emit post with
            | some mid =>
              obtain ⟨pre, hpre, heq⟩ :=
                dispatchPost_shape_success nowTs emit st effs post mid hemit
              rw [heq]
              exact ⟨pre ++ [Effect.sent nowTs post.channel post.id mid], rfl,
                Or.inr ⟨mid, pre, rfl, hpre, hp', hd, rfl, rfl⟩⟩
            | none =>
              obtain ⟨more, hmore, heq⟩ :=
                dispatchPost_shape_failure nowTs emit st effs post hemit
              rw [heq]
              exact ⟨more, rfl, Or.inl ⟨hmore, Or.inl rfl, Or.inr (Or.inr ⟨rfl, hp'⟩)⟩⟩
          · rw [processPost_of_notDue nowTs nowDt emit st effs post ud hp' ho hb' hor hd]
            exact ⟨[], by simp, Or.inl ⟨by simp [NoSent], Or.inl rfl, Or.inl rfl⟩⟩

/-! ### Facts about the last-send scan -/

theorem foldl_sentStep_noSent (ch : String) (l : List Effect)
    (acc : Option (String × Nat)) (h : NoSent l) :
    l.foldl (sentStep ch) acc = acc := by
  induction l generalizing acc with
  | nil => rfl
  | cons e rest ih =>
    have he := h e (List.mem_cons_self _ _)
    have hstep : sentStep ch acc e = acc := by
      cases e with
      | sent t c pid mid => exact absurd rfl (he t c pid mid)
      | deleteMsg c m => rfl
      | note u k => rfl
    rw [List.foldl_cons, hstep]
    exact ih acc (fun e2 h2 => h e2 (List.mem_cons_of_mem _ h2))

theorem lastSent_append (effs more : List Effect) (ch : String) :
    lastSent (effs ++ more) ch = more.foldl (sentStep ch) (lastSent effs ch) := by
  unfold lastSent
  rw [List.foldl_append]

theorem lastSent_append_noSent (effs more : List Effect) (ch : String)
    (h : NoSent more) : lastSent (effs ++ more) ch = lastSent effs ch := by
  rw [lastSent_append, foldl_sentStep_noSent ch more _ h]

theorem lastSent_append_sent_self (effs pre : List Effect) (h : NoSent pre)
    (t : Int) (ch pid : String) (mid : Nat) :
    lastSent (effs ++ (pre ++ [Effect.sent t ch pid mid])) ch = some (pid, mid) := by
  rw [lastSent_append, List.foldl_append, foldl_sentStep_noSent ch pre _ h]
  simp [sentStep]

theorem lastSent_append_sent_ne (effs pre : List Effect) (h : NoSent pre)
    (t : Int) (ch0 pid : String) (mid : Nat) (ch : String) (hne : ch0 ≠ ch) :
    lastSent (effs ++ (pre ++ [Effect.sent t ch0 pid mid])) ch = lastSent effs ch := by
  rw [lastSent_append, List.foldl_append, foldl_sentStep_noSent ch pre _ h]
  simp [sentStep, hne]

/-! ### Shape of the lifecycle operations -/

theorem dclm_shape (st : St) (effs : List Effect) (ch pid : String) :
    delete_channel_last_if_matches st effs ch pid = (st, effs) ∨
    ∃ m, delete_channel_last_if_matches st effs ch pid =
      ({ st with channel_last := eraseA st.channel_last ch },
       effs ++ [Effect.deleteMsg ch m]) := by
  unfold delete_channel_last_if_matches
  cases hl : lookupA st.channel_last ch with
  | none => exact Or.inl rfl
  | some info =>
    by_cases he : info.post_id = pid
    · exact Or.inr ⟨info.message_id, by simp [he]⟩
    · exact Or.inl (by simp [he])

theorem deleteCb_shape (st : St) (uid pid : String) :
    NoSent (deleteCb st uid pid).2.1 ∧
    ((deleteCb st uid pid).1.channel_last = st.channel_last ∨
      ∃ ch0, (deleteCb st uid pid).1.channel_last = eraseA st.channel_last ch0) ∧
    ((deleteCb st uid pid).1.scheduled = st.scheduled ∨
      ∃ p, (deleteCb st uid pid).1.scheduled = removeFirst st.scheduled p) := by
  by_cases hban : requesterBanned st uid = true
  · simp only [deleteCb, hban, if_true]
    exact ⟨by simp [NoSent], Or.inl (by trivial), Or.inl (by trivial)⟩
  · have hban' : requesterBanned st uid = false := by
      revert hban
      cases requesterBanned st uid <;> simp
    cases hf : findPost st pid with
    | none =>
      simp only [deleteCb, hban', Bool.false_eq_true, if_false, hf]
      exact ⟨by simp [NoSent], Or.inl (by trivial), Or.inl (by trivial)⟩
    | some p =>
      by_cases hauth : ((p.owner != uid) && !(is_admin st uid)) = true
      · simp only [deleteCb, hban', Bool.false_eq_true, if_false, hf, hauth, if_true]
        exact ⟨by simp [NoSent], Or.inl (by trivial), Or.inl (by trivial)⟩
      · have hauth' : ((p.owner != uid) && !(is_admin st uid)) = false := by
          revert hauth
          cases ((p.owner != uid) && !(is_admin st uid)) <;> simp
        have hstep : deleteCb st uid pid =
            (removeFromOwnerPosts
              { (delete_channel_last_if_matches st [] p.channel p.id).1 with
                  scheduled := removeFirst
                    (delete_channel_last_if_matches st [] p.channel p.id).1.scheduled p }
              p.owner pid,
             (delete_channel_last_if_matches st [] p.channel p.id).2 ++
               [Effect.note p.owner NoteKind.postDeleted], CbResult.deleted) := by
          simp [deleteCb, hban', hf, hauth']
        rw [hstep]
        refine ⟨?_, ?_, ?_⟩
        · rcases dclm_shape st ([] : List Effect) p.channel p.id with h | ⟨m, h⟩ <;>
            rw [h] <;> simp [NoSent]
        · rw [removeFromOwnerPosts_channel_last]
          rcases dclm_shape st ([] : List Effect) p.channel p.id with h | ⟨m, h⟩
          · rw [h]
            exact Or.inl rfl
          · rw [h]
            exact Or.inr ⟨p.channel, rfl⟩
        · rw [removeFromOwnerPosts_scheduled]
          exact Or.inr ⟨p, by rw [dclm_scheduled]⟩

theorem toggleCb_shape (st : St) (uid pid : String) :
    NoSent (toggleCb st uid pid).2.1 ∧
    (toggleCb st uid pid).1.channel_last = st.channel_last ∧
    (toggleCb st uid pid).1.users = st.users ∧
    ((toggleCb st uid pid).1.scheduled = st.scheduled ∨
      ∃ p, findPost st pid = some p ∧
        (toggleCb st uid pid).1.scheduled =
          replaceFirst st.scheduled p ({ p with paused := !p.paused })) := by
  by_cases hban : requesterBanned st uid = true
  · simp only [toggleCb, hban, if_true]
    exact ⟨by simp [NoSent], by trivial, by trivial, Or.inl (by trivial)⟩
  · have hban' : requesterBanned st uid = false := by
      revert hban
      cases requesterBanned st uid <;> simp
    cases hf : findPost st pid with
    | none =>
      simp only [toggleCb, hban', Bool.false_eq_true, if_false, hf]
      exact ⟨by simp [NoSent], by trivial, by trivial, Or.inl (by trivial)⟩
    | some p =>
      by_cases hauth : ((p.owner != uid) && !(is_admin st uid)) = true
      · simp only [toggleCb, hban', Bool.false_eq_true, if_false, hf, hauth, if_true]
        exact ⟨by simp [NoSent], by trivial, by trivial, Or.inl (by trivial)⟩
      · have hauth' : ((p.owner != uid) && !(is_admin st uid)) = false := by
          revert hauth
          cases ((p.owner != uid) && !(is_admin st uid)) <;> simp
        simp only [toggleCb, hban', Bool.false_eq_true, if_false, hf, hauth']
        exact ⟨by simp [NoSent], by trivial, by trivial, Or.inr ⟨p, rfl, by trivial⟩⟩

theorem createPost_scheduled (st : St) (p : Post) (te : Int) :
    (createPost st p te).scheduled = st.scheduled ++ [p] := by
  unfold createPost
  cases lookupA st.users p.owner <;> simp

theorem createPost_channel_last (st : St) (p : Post) (te : Int) :
    (createPost st p te).channel_last = st.channel_last := by
  unfold createPost
  cases lookupA st.users p.owner <;> simp

/-! ### Preservation of the channel-last invariant -/

theorem ChanInvC_append_noSent (cl : List (String × ChanInfo)) (effs more : List Effect)
    (h : ChanInvC cl effs) (hns : NoSent more) : ChanInvC cl (effs ++ more) :=
  ⟨h.1, fun ch info hlk => by
    rw [lastSent_append_noSent _ _ _ hns]
    exact h.2 ch info hlk⟩

theorem ChanInvC_erase (cl : List (String × ChanInfo)) (effs : List Effect)
    (ch0 : String) (h : ChanInvC cl effs) : ChanInvC (eraseA cl ch0) effs := by
  refine ⟨nodup_keysA_eraseA _ _ h.1, ?_⟩
  intro ch info hlk
  by_cases hch : ch = ch0
  · subst hch
    rw [lookupA_eraseA_self _ _ h.1] at hlk
    cases hlk
  · rw [lookupA_eraseA_ne _ _ _ hch] at hlk
    exact h.2 ch info hlk

theorem ChanInvC_set_sent (cl : List (String × ChanInfo)) (effs pre : List Effect)
    (t : Int) (ch0 pid : String) (mid : Nat) (h : ChanInvC cl effs)
    (hpre : NoSent pre) :
    ChanInvC (setA cl ch0 (ChanInfo.mk pid mid))
      (effs ++ (pre ++ [Effect.sent t ch0 pid mid])) := by
  refine ⟨nodup_keysA_setA _ _ _ h.1, ?_⟩
  intro ch info hlk
  by_cases hch : ch = ch0
  · subst hch
    rw [lookupA_setA_self] at hlk
    rw [Option.some_inj] at hlk
    subst hlk
    exact lastSent_append_sent_self effs pre hpre t ch pid mid
  · rw [lookupA_setA_ne _ _ _ _ hch] at hlk
    rw [lastSent_append_sent_ne effs pre hpre t ch0 pid mid ch (fun hh => hch hh.symm)]
    exact h.2 ch info hlk

theorem ChanInvC_processPost (nowTs nowDt : Int) (emit : Post → Option Nat)
    (acc : St × List Effect) (post : Post)
    (h : ChanInvC acc.1.channel_last acc.2) :
    ChanInvC (processPost nowTs nowDt emit acc post).1.channel_last
      (processPost nowTs nowDt emit acc post).2 := by
  obtain ⟨st, effs⟩ := acc
  obtain ⟨more, heff, hcase⟩ := processPost_main_cases nowTs nowDt emit st effs post
  rcases hcase with ⟨hns, hclc, _⟩ | ⟨mid, pre, hmore, hpre, _, _, hcl, _⟩
  · rw [heff]
    rcases hclc with hclc | hclc <;> rw [hclc]
    · exact ChanInvC_append_noSent _ _ _ h hns
    · exact ChanInvC_append_noSent _ _ _ (ChanInvC_erase _ _ _ h) hns
  · rw [heff, hmore, hcl]
    exact ChanInvC_set_sent _ _ _ nowTs post.channel post.id mid h hpre

theorem ChanInvC_foldl (nowTs nowDt : Int) (emit : Post → Option Nat)
    (posts : List Post) :
    ∀ acc : St × List Effect, ChanInvC acc.1.channel_last acc.2 →
      ChanInvC (posts.foldl (processPost nowTs nowDt emit) acc).1.channel_last
        (posts.foldl (processPost nowTs nowDt emit) acc).2 := by
  induction posts with
  | nil => exact fun acc h => h
  | cons q rest ih =>
    intro acc h
    rw [List.foldl_cons]
    exact ih _ (ChanInvC_processPost nowTs nowDt emit acc q h)

theorem ChanInvC_runOp (acc : St × List Effect) (op : Op)
    (h : ChanInvC acc.1.channel_last acc.2) :
    ChanInvC (runOp acc op).1.channel_last (runOp acc op).2 := by
  cases op with
  | tickOp nowTs nowDt emit =>
    show ChanInvC (tick nowTs nowDt emit acc.1 acc.2).1.channel_last
      (tick nowTs nowDt emit acc.1 acc.2).2
    unfold tick
    exact ChanInvC_foldl nowTs nowDt emit acc.1.scheduled (acc.1, acc.2) h
  | deleteOp uid pid =>
    obtain ⟨hns, hclc, _⟩ := deleteCb_shape acc.1 uid pid
    show ChanInvC (deleteCb acc.1 uid pid).1.channel_last
      (acc.2 ++ (deleteCb acc.1 uid pid).2.1)
    rcases hclc with hclc | ⟨ch0, hclc⟩ <;> rw [hclc]
    · exact ChanInvC_append_noSent _ _ _ h hns
    · exact ChanInvC_append_noSent _ _ _ (ChanInvC_erase _ _ _ h) hns
  | toggleOp uid pid =>
    obtain ⟨hns, hclc, _, _⟩ := toggleCb_shape acc.1 uid pid
    show ChanInvC (toggleCb acc.1 uid pid).1.channel_last
      (acc.2 ++ (toggleCb acc.1 uid pid).2.1)
    rw [hclc]
    exact ChanInvC_append_noSent _ _ _ h hns
  | createOp p te =>
    show ChanInvC (createPost acc.1 p te).channel_last acc.2
    rw [createPost_channel_last]
    exact h

theorem ChanInvC_runOps (ops : List Op) :
    ∀ acc : St × List Effect, ChanInvC acc.1.channel_last acc.2 →
      ChanInvC (runOps acc ops).1.channel_last (runOps acc ops).2 := by
  induction ops with
  | nil => exact fun acc h => h
  | cons op rest ih =>
    intro acc h
    simp only [runOps, List.foldl_cons]
    exact ih (runOp acc op) (ChanInvC_runOp acc op h)

/-! ### C1 -/

/-- C1: starting from the empty initial store, after any sequence of
ticks, lifecycle calls and creations, the channel-last map has at most
one entry per channel (its keys are nodup), and every entry holds
exactly the post id and message id of the most recent successful send
on that channel. -/
theorem channel_last_single_live (admins : List String) (ops : List Op) :
    (keysA (runOps (initSt admins, []) ops).1.channel_last).Nodup ∧
    ∀ ch info,
      lookupA (runOps (initSt admins, []) ops).1.channel_last ch = some info →
      lastSent (runOps (initSt admins, []) ops).2 ch =
        some (info.post_id, info.message_id) := by
  have h0 : ChanInvC (initSt admins, ([] : List Effect)).1.channel_last
      (initSt admins, ([] : List Effect)).2 := by
    constructor
    · simp [initSt, keysA]
    · intro ch info hlk
      simp [initSt, lookupA] at hlk
  exact ChanInvC_runOps ops (initSt admins, []) h0

/-- Witness instantiating `channel_last_single_live` on the concrete
two-operation run: the surviving entry matches the send of message 9. -/
theorem channel_last_single_live_witness :
    lastSent (runOps (initSt [], []) demoOps).2 "ch" = some ("6", 9) :=
  (channel_last_single_live [] demoOps).2 "ch" (ChanInfo.mk "6" 9) (by decide)

/-! ### Preservation of the cadence lower bound -/

theorem cadence_processPost (nowTs nowDt : Int) (emit : Post → Option Nat)
    (st : St) (effs : List Effect) (post : Post) (pid : String) (T : Int)
    (hq : post.id = pid → T ≤ post.next_time)
    (hst : NextLBL st.scheduled pid T) (heff : SentLB effs pid T) :
    NextLBL (processPost nowTs nowDt emit (st, effs) post).1.scheduled pid T ∧
    SentLB (processPost nowTs nowDt emit (st, effs) post).2 pid T := by
  obtain ⟨more, heffq, hcase⟩ := processPost_main_cases nowTs nowDt emit st effs post
  rcases hcase with ⟨hns, _, hsch⟩ | ⟨mid, pre, hmore, hpre, hp, hd, _, hsch⟩
  · constructor
    · rcases hsch with hsch | hsch | ⟨hsch, _⟩ <;> rw [hsch]
      · exact hst
      · intro q hqm hqid
        exact hst q (mem_removeFirst_subset _ _ _ hqm) hqid
      · intro q hqm hqid
        rcases mem_replaceFirst _ _ _ _ hqm with hin | rfl
        · exact hst q hin hqid
        · exact hq hqid
    · rw [heffq]
      intro t ch mid2 hm
      rcases List.mem_append.mp hm with hm | hm
      · exact heff t ch mid2 hm
      · exact absurd rfl (hns _ hm t ch pid mid2)
  · constructor
    · rw [hsch]
      intro q hqm hqid
      rcases mem_replaceFirst _ _ _ _ hqm with hin | rfl
      · exact hst q hin hqid
      · have h1 : T ≤ post.next_time := hq hqid
        have h2 : post.next_time ≤ nowTs := hd
        have h3 : (0 : Int) ≤ (post.minute : Int) * 60 := by positivity
        show T ≤ nowTs + (post.minute : Int) * 60
        omega
    · rw [heffq, hmore]
      intro t ch mid2 hm
      rcases List.mem_append.mp hm with hm | hm
      · exact heff t ch mid2 hm
      · rcases List.mem_append.mp hm with hm | hm
        · exact absurd rfl (hpre _ hm t ch pid mid2)
        · rw [List.mem_singleton] at hm
          injection hm with h1 h2 h3 h4
          have hT : T ≤ post.next_time := hq h3.symm
          have h5 : post.next_time ≤ nowTs := hd
          omega

theorem cadence_foldl (nowTs nowDt : Int) (emit : Post → Option Nat) (pid : String)
    (T : Int) (posts : List Post) :
    ∀ acc : St × List Effect,
      (∀ q ∈ posts, q.id = pid → T ≤ q.next_time) →
      NextLBL acc.1.scheduled pid T → SentLB acc.2 pid T →
      NextLBL (posts.foldl (processPost nowTs nowDt emit) acc).1.scheduled pid T ∧
      SentLB (posts.foldl (processPost nowTs nowDt emit) acc).2 pid T := by
  induction posts with
  | nil => exact fun acc _ h1 h2 => ⟨h1, h2⟩
  | cons q rest ih =>
    intro acc hsnap h1 h2
    rw [List.foldl_cons]
    obtain ⟨st, effs⟩ := acc
    obtain ⟨h1q, h2q⟩ := cadence_processPost nowTs nowDt emit st effs q pid T
      (hsnap q (List.mem_cons_self _ _)) h1 h2
    exact ih _ (fun r hr => hsnap r (List.mem_cons_of_mem _ hr)) h1q h2q

theorem cadence_runOp (acc : St × List Effect) (op : Op) (pid : String) (T : Int)
    (hcr : ∀ p te, op = Op.createOp p te → p.id ≠ pid)
    (h1 : NextLBL acc.1.scheduled pid T) (h2 : SentLB acc.2 pid T) :
    NextLBL (runOp acc op).1.scheduled pid T ∧ SentLB (runOp acc op).2 pid T := by
  cases op with
  | tickOp nowTs nowDt emit =>
    show NextLBL (tick nowTs nowDt emit acc.1 acc.2).1.scheduled pid T ∧
      SentLB (tick nowTs nowDt emit acc.1 acc.2).2 pid T
    unfold tick
    exact cadence_foldl nowTs nowDt emit pid T acc.1.scheduled (acc.1, acc.2) h1 h1 h2
  | deleteOp uid pid2 =>
    obtain ⟨hns, _, hsch⟩ := deleteCb_shape acc.1 uid pid2
    show NextLBL (deleteCb acc.1 uid pid2).1.scheduled pid T ∧
      SentLB (acc.2 ++ (deleteCb acc.1 uid pid2).2.1) pid T
    constructor
    · rcases hsch with hsch | ⟨p, hsch⟩ <;> rw [hsch]
      · exact h1
      · intro q hq hqid
        exact h1 q (mem_removeFirst_subset _ _ _ hq) hqid
    · intro t ch mid hm
      rcases List.mem_append.mp hm with hm | hm
      · exact h2 t ch mid hm
      · exact absurd rfl (hns _ hm t ch pid mid)
  | toggleOp uid pid2 =>
    obtain ⟨hns, _, _, hsch⟩ := toggleCb_shape acc.1 uid pid2
    show NextLBL (toggleCb acc.1 uid pid2).1.scheduled pid T ∧
      SentLB (acc.2 ++ (toggleCb acc.1 uid pid2).2.1) pid T
    constructor
    · rcases hsch with hsch | ⟨p, hf, hsch⟩ <;> rw [hsch]
      · exact h1
      · intro q hq hqid
        rcases mem_replaceFirst _ _ _ _ hq with hin | rfl
        · exact h1 q hin hqid
        · have hp : p ∈ acc.1.scheduled := by
            unfold findPost at hf
            exact List.mem_of_find?_eq_some hf
          exact h1 p hp hqid
    · intro t ch mid hm
      rcases List.mem_append.mp hm with hm | hm
      · exact h2 t ch mid hm
      · exact absurd rfl (hns _ hm t ch pid mid)
  | createOp p te =>
    show NextLBL (createPost acc.1 p te).scheduled pid T ∧ SentLB acc.2 pid T
    refine ⟨?_, h2⟩
    rw [createPost_scheduled]
    intro q hq hqid
    rcases List.mem_append.mp hq with hin | hin
    · exact h1 q hin hqid
    · rw [List.mem_singleton] at hin
      subst hin
      exact absurd hqid (hcr q te rfl)

theorem cadence_runOps (ops : List Op) (pid : String) (T : Int) :
    ∀ acc : St × List Effect,
      (∀ p te, Op.createOp p te ∈ ops → p.id ≠ pid) →
      NextLBL acc.1.scheduled pid T → SentLB acc.2 pid T →
      NextLBL (runOps acc ops).1.scheduled pid T ∧
      SentLB (runOps acc ops).2 pid T := by
  induction ops with
  | nil => exact fun acc _ h1 h2 => ⟨h1, h2⟩
  | cons op rest ih =>
    intro acc hcr h1 h2
    simp only [runOps, List.foldl_cons]
    obtain ⟨h1q, h2q⟩ := cadence_runOp acc op pid T
      (fun p te he => hcr p te (by rw [he]; exact List.mem_cons_self _ _)) h1 h2
    exact ih (runOp acc op) (fun p te hm => hcr p te (List.mem_cons_of_mem _ hm)) h1q h2q

/-! ### C2 -/

/-- C2: (i) when a due, eligible post's emission succeeds at tick time
`nowTs`, the step stores the channel-last entry `(post.id, mid)`, sets
the post's last message ref to `mid` and its next fire time to
`nowTs + minute*60`, recording the send; (ii) from any state in which
every post with a given id has `next_time ≥ T` and no earlier send of
that id is recorded, any run of ticks and lifecycle calls (with no
fresh creation of that id) only produces sends of that id at times
`≥ T` — in particular the next dispatch after a success at `T0` with
interval `M`, where the bound `T = T0 + M*60` holds, never occurs
earlier than `T0 + M*60`. -/
theorem dispatch_success_bookkeeping_cadence :
    (∀ (nowTs nowDt : Int) (emit : Post → Option Nat) (st : St) (eff : List Effect)
        (post : Post) (ud : UserRec) (mid : Nat),
      post.paused = false → lookupA st.users post.owner = some ud →
      ud.banned = false →
      (trialOver ud nowDt = false ∨ is_admin st post.owner = true) →
      nowTs ≥ post.next_time → emit post = some mid →
      lookupA (processPost nowTs nowDt emit (st, eff) post).1.channel_last
          post.channel = some (ChanInfo.mk post.id mid) ∧
      (processPost nowTs nowDt emit (st, eff) post).1.scheduled =
        replaceFirst st.scheduled post
          ({ post with last_message_id := some mid,
                       next_time := nowTs + (post.minute : Int) * 60 }) ∧
      Effect.sent nowTs post.channel post.id mid ∈
        (processPost nowTs nowDt emit (st, eff) post).2) ∧
    (∀ (st : St) (effs : List Effect) (pid : String) (T : Int) (ops : List Op),
      NextLBL st.scheduled pid T → SentLB effs pid T →
      (∀ p te, Op.createOp p te ∈ ops → p.id ≠ pid) →
      NextLBL (runOps (st, effs) ops).1.scheduled pid T ∧
      SentLB (runOps (st, effs) ops).2 pid T) := by
  constructor
  · intro nowTs nowDt emit st eff post ud mid hp ho hb ht hd he
    rw [processPost_of_due nowTs nowDt emit st eff post ud hp ho hb ht hd,
        dispatchPost_success nowTs emit st eff post mid he]
    refine ⟨by rw [lookupA_setA_self], rfl, ?_⟩
    cases hl : lookupA st.channel_last post.channel <;> simp [hl]
  · intro st effs pid T ops h1 h2 hcr
    exact cadence_runOps ops pid T (st, effs) hcr h1 h2

/-- Witness instantiating `dispatch_success_bookkeeping_cadence`: the
concrete successful dispatch of post 6 at time 5, and the cadence bound
on the demonstration run. -/
theorem dispatch_success_bookkeeping_cadence_witness :
    lookupA (processPost 5 5 (fun _ => some 9) (stOk, []) okPost).1.channel_last
        "ch" = some (ChanInfo.mk "6" 9) ∧
    Effect.sent 5 "ch" "6" 9 ∈ (processPost 5 5 (fun _ => some 9) (stOk, []) okPost).2 ∧
    SentLB (runOps (stOk, []) [Op.tickOp 5 5 (fun _ => some 9)]).2 "6" 0 := by
  have hA := dispatch_success_bookkeeping_cadence.1 5 5 (fun _ => some 9) stOk []
    okPost goodOwner 9 rfl rfl rfl (Or.inl rfl) (by decide) rfl
  have hB := dispatch_success_bookkeeping_cadence.2 stOk [] "6" 0
    [Op.tickOp 5 5 (fun _ => some 9)]
    (by
      intro q hq hid
      have hq2 : q = okPost := by simpa [stOk] using hq
      subst hq2
      decide)
    (by intro t ch mid hm; cases hm)
    (by intro p te hm; simp at hm)
  exact ⟨hA.1, hA.2.2, hB.2⟩

/-! ### Preservation of pause stability -/

theorem pause_stab_processPost (nowTs nowDt : Int) (emit : Post → Option Nat)
    (st : St) (effs : List Effect) (q p : Post) (effs0 : List Effect)
    (hpause : p.paused = true)
    (hsq : q.id = p.id → q = p)
    (hmem : p ∈ st.scheduled)
    (hall : ∀ r ∈ st.scheduled, r.id = p.id → r = p)
    (hsent : ∀ (t : Int) (ch : String) (mid : Nat),
      Effect.sent t ch p.id mid ∈ effs → Effect.sent t ch p.id mid ∈ effs0) :
    p ∈ (processPost nowTs nowDt emit (st, effs) q).1.scheduled ∧
    (∀ r ∈ (processPost nowTs nowDt emit (st, effs) q).1.scheduled,
      r.id = p.id → r = p) ∧
    (∀ (t : Int) (ch : String) (mid : Nat),
      Effect.sent t ch p.id mid ∈ (processPost nowTs nowDt emit (st, effs) q).2 →
      Effect.sent t ch p.id mid ∈ effs0) := by
  by_cases hqp : q = p
  · subst hqp
    rw [processPost_of_paused nowTs nowDt emit (st, effs) q hpause]
    exact ⟨hmem, hall, hsent⟩
  · have hqid : q.id ≠ p.id := fun h => hqp (hsq h)
    obtain ⟨more, heffq, hcase⟩ := processPost_main_cases nowTs nowDt emit st effs q
    rcases hcase with ⟨hns, _, hsch⟩ | ⟨mid, pre, hmore, hpre, hqpause, _, _, hsch⟩
    · refine ⟨?_, ?_, ?_⟩
      · rcases hsch with hsch | hsch | ⟨hsch, _⟩ <;> rw [hsch]
        · exact hmem
        · exact mem_removeFirst_of_ne _ _ _ hmem (fun h => hqp h.symm)
        · exact mem_replaceFirst_of_ne _ _ _ _ hmem (fun h => hqp h.symm)
      · rcases hsch with hsch | hsch | ⟨hsch, _⟩ <;> rw [hsch]
        · exact hall
        · intro r hr hrid
          exact hall r (mem_removeFirst_subset _ _ _ hr) hrid
        · intro r hr hrid
          rcases mem_replaceFirst _ _ _ _ hr with hin | rfl
          · exact hall r hin hrid
          · exact absurd hrid hqid
      · rw [heffq]
        intro t ch mid hm
        rcases List.mem_append.mp hm with hm | hm
        · exact hsent t ch mid hm
        · exact absurd rfl (hns _ hm t ch p.id mid)
    · refine ⟨?_, ?_, ?_⟩
      · rw [hsch]
        exact mem_replaceFirst_of_ne _ _ _ _ hmem (fun h => hqp h.symm)
      · rw [hsch]
        intro r hr hrid
        rcases mem_replaceFirst _ _ _ _ hr with hin | rfl
        · exact hall r hin hrid
        · exact absurd hrid hqid
      · rw [heffq, hmore]
        intro t ch mid2 hm
        rcases List.mem_append.mp hm with hm | hm
        · exact hsent t ch mid2 hm
        · rcases List.mem_append.mp hm with hm | hm
          · exact absurd rfl (hpre _ hm t ch p.id mid2)
          · rw [List.mem_singleton] at hm
            injection hm with h1 h2 h3 h4
            exact absurd h3.symm hqid

theorem pause_stab_foldl (nowTs nowDt : Int) (emit : Post → Option Nat)
    (p : Post) (effs0 : List Effect) (hpause : p.paused = true)
    (posts : List Post) :
    ∀ acc : St × List Effect,
      (∀ q ∈ posts, q.id = p.id → q = p) →
      p ∈ acc.1.scheduled →
      (∀ r ∈ acc.1.scheduled, r.id = p.id → r = p) →
      (∀ (t : Int) (ch : String) (mid : Nat),
        Effect.sent t ch p.id mid ∈ acc.2 → Effect.sent t ch p.id mid ∈ effs0) →
      p ∈ (posts.foldl (processPost nowTs nowDt emit) acc).1.scheduled ∧
      (∀ r ∈ (posts.foldl (processPost nowTs nowDt emit) acc).1.scheduled,
        r.id = p.id → r = p) ∧
      (∀ (t : Int) (ch : String) (mid : Nat),
        Effect.sent t ch p.id mid ∈ (posts.foldl (processPost nowTs nowDt emit) acc).2 →
        Effect.sent t ch p.id mid ∈ effs0) := by
  induction posts with
  | nil => exact fun acc _ h1 h2 h3 => ⟨h1, h2, h3⟩
  | cons q rest ih =>
    intro acc hsnap h1 h2 h3
    rw [List.foldl_cons]
    obtain ⟨st, effs⟩ := acc
    obtain ⟨h1q, h2q, h3q⟩ := pause_stab_processPost nowTs nowDt emit st effs q p effs0
      hpause (hsnap q (List.mem_cons_self _ _)) h1 h2 h3
    exact ih _ (fun r hr => hsnap r (List.mem_cons_of_mem _ hr)) h1q h2q h3q

theorem pause_stab_runOps (p : Post) (effs0 : List Effect) (hpause : p.paused = true)
    (ops : List Op) :
    ∀ acc : St × List Effect,
      (∀ op ∈ ops, ∃ (nowTs nowDt : Int) (emit : Post → Option Nat),
        op = Op.tickOp nowTs nowDt emit) →
      p ∈ acc.1.scheduled →
      (∀ r ∈ acc.1.scheduled, r.id = p.id → r = p) →
      (∀ (t : Int) (ch : String) (mid : Nat),
        Effect.sent t ch p.id mid ∈ acc.2 → Effect.sent t ch p.id mid ∈ effs0) →
      p ∈ (runOps acc ops).1.scheduled ∧
      (∀ r ∈ (runOps acc ops).1.scheduled, r.id = p.id → r = p) ∧
      (∀ (t : Int) (ch : String) (mid : Nat),
        Effect.sent t ch p.id mid ∈ (runOps acc ops).2 →
        Effect.sent t ch p.id mid ∈ effs0) := by
  induction ops with
  | nil => exact fun acc _ h1 h2 h3 => ⟨h1, h2, h3⟩
  | cons op rest ih =>
    intro acc hticks h1 h2 h3
    simp only [runOps, List.foldl_cons]
    obtain ⟨nowTs, nowDt, emit, rfl⟩ := hticks op (List.mem_cons_self _ _)
    have hstep : runOp acc (Op.tickOp nowTs nowDt emit) =
        acc.1.scheduled.foldl (processPost nowTs nowDt emit) (acc.1, acc.2) := rfl
    obtain ⟨h1q, h2q, h3q⟩ := pause_stab_foldl nowTs nowDt emit p effs0 hpause
      acc.1.scheduled (acc.1, acc.2) h2 h1 h2 h3
    rw [hstep] at *
    exact ih _ (fun op2 hop2 => hticks op2 (List.mem_cons_of_mem _ hop2)) h1q h2q h3q

/-! ### C6 -/

/-- C6: a post with `paused = true` is untouched by the scheduler —
across any sequence of ticks the exact post value (hence its
`next_time`) remains in the store, every stored post carrying its id is
still that value, and no send of its id is ever recorded beyond those
already present before the run; only an explicit resume (absent from a
tick-only run) can change this. -/
theorem pause_stability (st : St) (effs : List Effect) (p : Post) (ops : List Op)
    (hpause : p.paused = true) (hmem : p ∈ st.scheduled)
    (huniq : ∀ q ∈ st.scheduled, q.id = p.id → q = p)
    (hticks : ∀ op ∈ ops, ∃ (nowTs nowDt : Int) (emit : Post → Option Nat),
      op = Op.tickOp nowTs nowDt emit) :
    p ∈ (runOps (st, effs) ops).1.scheduled ∧
    (∀ q ∈ (runOps (st, effs) ops).1.scheduled, q.id = p.id → q = p) ∧
    (∀ (t : Int) (ch : String) (mid : Nat),
      Effect.sent t ch p.id mid ∈ (runOps (st, effs) ops).2 →
      Effect.sent t ch p.id mid ∈ effs) :=
  pause_stab_runOps p effs hpause ops (st, effs) hticks hmem huniq
    (fun _ _ _ hm => hm)

/-- Witness instantiating `pause_stability` on a concrete paused post
over one tick with a would-succeed emission oracle. -/
theorem pause_stability_witness :
    pausedPost ∈
      (runOps (stPausedBanned, []) [Op.tickOp 1000 1000 (fun _ => some 3)]).1.scheduled := by
  have h := pause_stability stPausedBanned [] pausedPost
    [Op.tickOp 1000 1000 (fun _ => some 3)] rfl (by decide)
    (by
      intro q hq hid
      simpa [stPausedBanned] using hq)
    (by
      intro op hop
      rw [List.mem_singleton] at hop
      exact ⟨1000, 1000, fun _ => some 3, hop⟩)
  exact h.1

end Deni
